import Mathlib

/-!
Verification of the p2pool-go consensus core: a shallow embedding in Lean 4 of
the byte primitives (`pkg/util`), the PPLNS payout calculator (`internal/pplns`),
the difficulty calculator and share validator (`internal/sharechain`), the
merkle-tree helpers (`internal/work`), the P2P message layer (`internal/p2p`)
and the share model (`internal/types`), together with theorems settling the
stated properties of those components.

Machine integers are modelled as `Nat`/`Int` (Go's `big.Int` is exactly `Int`;
Go's `big.Int.Div`/`Mod` are Euclidean division, i.e. Lean's `Int.ediv`/`emod`).
Byte strings are `List Nat` whose elements are byte values.  Where Go code is
only reachable with values inside `int64`/`uint32` range, theorems carry the
corresponding range hypotheses instead of re-implementing wrap-around.
-/

namespace P2PoolGo

/-! ## Byte primitives (`pkg/util`) -/

/-- Little-endian 2-byte encoding, as produced by `binary.LittleEndian.PutUint16`. -/
def le16 (v : ℕ) : List ℕ := [v % 2 ^ 8, v / 2 ^ 8 % 2 ^ 8]

/-- Little-endian 4-byte encoding, as produced by `binary.LittleEndian.PutUint32`. -/
def le32 (v : ℕ) : List ℕ :=
  [v % 2 ^ 8, v / 2 ^ 8 % 2 ^ 8, v / 2 ^ 16 % 2 ^ 8, v / 2 ^ 24 % 2 ^ 8]

/-- Little-endian 8-byte encoding, as produced by `binary.LittleEndian.PutUint64`. -/
def le64 (v : ℕ) : List ℕ :=
  [v % 2 ^ 8, v / 2 ^ 8 % 2 ^ 8, v / 2 ^ 16 % 2 ^ 8, v / 2 ^ 24 % 2 ^ 8,
   v / 2 ^ 32 % 2 ^ 8, v / 2 ^ 40 % 2 ^ 8, v / 2 ^ 48 % 2 ^ 8, v / 2 ^ 56 % 2 ^ 8]

/-- Go `util.WriteVarInt`: Bitcoin-style variable-length integer encoding of a `uint64`. -/
def WriteVarInt (val : ℕ) : List ℕ :=
  if val < 0xfd then [val]
  else if val ≤ 0xffff then 0xfd :: le16 val
  else if val ≤ 0xffffffff then 0xfe :: le32 val
  else 0xff :: le64 val

/-- Go `util.ReadVarInt`: decodes a Bitcoin-style variable-length integer, returning
the value and the number of bytes consumed, or an error on insufficient data. -/
def ReadVarInt (data : List ℕ) : Except String (ℕ × ℕ) :=
  match data with
  | [] => .error "empty data"
  | b0 :: rest =>
    if b0 < 0xfd then .ok (b0, 1)
    else if b0 = 0xfd then
      match rest with
      | b1 :: b2 :: _ => .ok (b1 + 2 ^ 8 * b2, 3)
      | _ => .error "insufficient data for uint16 varint"
    else if b0 = 0xfe then
      match rest with
      | b1 :: b2 :: b3 :: b4 :: _ =>
        .ok (b1 + 2 ^ 8 * b2 + 2 ^ 16 * b3 + 2 ^ 24 * b4, 5)
      | _ => .error "insufficient data for uint32 varint"
    else
      match rest with
      | b1 :: b2 :: b3 :: b4 :: b5 :: b6 :: b7 :: b8 :: _ =>
        .ok (b1 + 2 ^ 8 * b2 + 2 ^ 16 * b3 + 2 ^ 24 * b4 + 2 ^ 32 * b5 +
             2 ^ 40 * b6 + 2 ^ 48 * b7 + 2 ^ 56 * b8, 9)
      | _ => .error "insufficient data for uint64 varint"

/-- Fuel-driven byte-length helper (structural recursion so the kernel can
evaluate it; the fuel argument is always at least the input). -/
def byteLenAux : ℕ → ℕ → ℕ
  | 0, _ => 0
  | fuel + 1, n => if n = 0 then 0 else byteLenAux fuel (n / 256) + 1

/-- Number of bytes in the big-endian representation of `n`, i.e. the length of
`big.Int.Bytes` for a nonnegative value. -/
def byteLen (n : ℕ) : ℕ := byteLenAux n n

theorem byteLenAux_eq (fuel n : ℕ) (h : n ≤ fuel) :
    byteLenAux fuel n = if n = 0 then 0 else Nat.log 256 n + 1 := by
  induction fuel generalizing n with
  | zero =>
    interval_cases n
    simp [byteLenAux]
  | succ fuel ih =>
    by_cases hn : n = 0
    · simp [byteLenAux, hn]
    · have hdiv : n / 256 ≤ fuel := by
        have : n / 256 < n := Nat.div_lt_self (Nat.pos_of_ne_zero hn) (by norm_num)
        omega
      rw [byteLenAux, if_neg hn, ih _ hdiv]
      by_cases hsmall : n < 256
      · have h0 : n / 256 = 0 := Nat.div_eq_of_lt hsmall
        have hlog : Nat.log 256 n = 0 := Nat.log_eq_zero_iff.mpr (Or.inl hsmall)
        simp [h0, hlog, hn]
      · have h0 : n / 256 ≠ 0 := by omega
        rw [if_neg h0, if_neg hn]
        have hdb : Nat.log 256 (n / 256) = Nat.log 256 n - 1 := Nat.log_div_base 256 n
        have hpos : 0 < Nat.log 256 n := Nat.log_pos (by norm_num) (by omega)
        omega

theorem byteLen_zero : byteLen 0 = 0 := rfl

theorem byteLen_eq (n : ℕ) (hn : n ≠ 0) : byteLen n = Nat.log 256 n + 1 := by
  rw [byteLen, byteLenAux_eq n n le_rfl, if_neg hn]

theorem byteLen_le_self_pow (n : ℕ) : n < 256 ^ byteLen n := by
  by_cases hn : n = 0
  · simp [hn, byteLen_zero]
  · rw [byteLen_eq n hn]
    exact Nat.lt_pow_succ_log_self (by norm_num) n

theorem pow_byteLen_le (n : ℕ) (hn : n ≠ 0) : 256 ^ (byteLen n - 1) ≤ n := by
  rw [byteLen_eq n hn]
  simpa using Nat.pow_log_le_self 256 hn

theorem byteLen_eq_iff (n k : ℕ) (hk : k ≠ 0) :
    byteLen n = k ↔ 256 ^ (k - 1) ≤ n ∧ n < 256 ^ k := by
  constructor
  · rintro rfl
    refine ⟨?_, byteLen_le_self_pow n⟩
    apply pow_byteLen_le n
    rintro rfl
    exact hk byteLen_zero.symm
  · rintro ⟨h1, h2⟩
    have hn : n ≠ 0 := by
      have : (1 : ℕ) ≤ 256 ^ (k - 1) := Nat.one_le_pow _ _ (by norm_num)
      omega
    rw [byteLen_eq n hn]
    have := Nat.log_eq_of_pow_le_of_lt_pow (b := 256) (m := k - 1) (n := n) h1 (by
      have : k - 1 + 1 = k := by omega
      rw [this]; exact h2)
    omega

theorem byteLen_mul_pow (m k : ℕ) (hm : m ≠ 0) :
    byteLen (m * 256 ^ k) = byteLen m + k := by
  have hk : byteLen m + k ≠ 0 := by
    have : byteLen m ≠ 0 := by
      rw [byteLen_eq m hm]; omega
    omega
  rw [byteLen_eq_iff _ _ hk]
  have h1 : 256 ^ (byteLen m - 1) ≤ m := pow_byteLen_le m hm
  have h2 : m < 256 ^ byteLen m := byteLen_le_self_pow m
  have hb : byteLen m ≠ 0 := by rw [byteLen_eq m hm]; omega
  constructor
  · have : byteLen m + k - 1 = byteLen m - 1 + k := by omega
    rw [this, pow_add]
    exact Nat.mul_le_mul_right _ h1
  · rw [pow_add]
    exact mul_lt_mul_of_pos_right h2 (by positivity)

/-- Go `util.CompactToTarget`: converts Bitcoin compact (nBits) form to a target.
The exponent is the high byte, the mantissa the low 23 bits, and bit 23 is the
sign bit (`0x00800000`). -/
def CompactToTarget (compact : ℕ) : ℤ :=
  let exponent := compact / 2 ^ 24
  let mantissa := compact % 2 ^ 23
  let t : ℕ :=
    if exponent ≤ 3 then mantissa / 2 ^ (8 * (3 - exponent))
    else mantissa * 2 ^ (8 * (exponent - 3))
  if compact / 2 ^ 23 % 2 = 1 then -(t : ℤ) else (t : ℤ)

/-- Go `util.TargetToCompact`: converts a target back to Bitcoin compact (nBits)
form, normalizing mantissas whose top bit is set.  `size` is truncated modulo
256 exactly as the Go `uint32` shift `size << 24` does. -/
def TargetToCompact (target : ℤ) : ℕ :=
  if target = 0 then 0
  else
    let isNegative := target < 0
    let a := target.natAbs
    let size := byteLen a
    let mantissa := if size ≤ 3 then a else a / 2 ^ (8 * (size - 3))
    let mantissa' := if 2 ^ 23 ≤ mantissa then mantissa / 2 ^ 8 else mantissa
    let size' := if 2 ^ 23 ≤ mantissa then size + 1 else size
    let compact := size' % 256 * 2 ^ 24 + mantissa' % 2 ^ 23
    if isNegative then compact + 2 ^ 23 else compact

/-! ## VarInt round trip (claim C8) -/

/-- C8: for every `u64` value `v` (including all boundary values), decoding the
encoding of `v` succeeds and returns `v` together with a consumed-byte count
equal to the length of the encoding. -/
theorem readVarInt_writeVarInt (v : ℕ) (hv : v < 2 ^ 64) :
    ReadVarInt (WriteVarInt v) = .ok (v, (WriteVarInt v).length) := by
  unfold WriteVarInt
  by_cases h1 : v < 0xfd
  · simp [h1, ReadVarInt]
  · rw [if_neg h1]
    by_cases h2 : v ≤ 0xffff
    · rw [if_pos h2]
      simp only [ReadVarInt, le16, List.length_cons, List.length_nil]
      norm_num
      omega
    · rw [if_neg h2]
      by_cases h3 : v ≤ 0xffffffff
      · rw [if_pos h3]
        simp only [ReadVarInt, le32, List.length_cons, List.length_nil]
        norm_num
        omega
      · rw [if_neg h3]
        simp only [ReadVarInt, le64, List.length_cons, List.length_nil]
        norm_num
        omega

/-- C8 witness: the round trip at the largest `u64` boundary value. -/
theorem readVarInt_writeVarInt_witness :
    ReadVarInt (WriteVarInt 0xffffffffffffffff) =
      .ok (0xffffffffffffffff, (WriteVarInt 0xffffffffffffffff).length) :=
  readVarInt_writeVarInt 0xffffffffffffffff (by norm_num)

/-! ## Compact round trip (claim C7) -/

/-- A realistic compact value: a canonical encoding whose mantissa is nonzero
and normalized (its top byte is nonzero, or the mantissa is in
`[0x8000, 0xffff]` and cannot be shifted up without setting the sign bit) and
whose sign bit is clear.  These are exactly the encodings `TargetToCompact`
itself produces for targets of at least three bytes. -/
def RealisticCompact (c : ℕ) : Prop :=
  c < 2 ^ 32 ∧ c % 2 ^ 24 < 2 ^ 23 ∧
    ((3 ≤ c / 2 ^ 24 ∧ 2 ^ 16 ≤ c % 2 ^ 23) ∨
     (4 ≤ c / 2 ^ 24 ∧ 2 ^ 15 ≤ c % 2 ^ 23 ∧ c % 2 ^ 23 < 2 ^ 16))

instance (c : ℕ) : Decidable (RealisticCompact c) := by
  unfold RealisticCompact
  infer_instance

/-- Evaluation of `TargetToCompact` on a positive target, with the local
bindings of the Go function expanded. -/
theorem TargetToCompact_pos (a : ℕ) (ha : a ≠ 0) :
    TargetToCompact (a : ℤ) =
      (if 2 ^ 23 ≤ (if byteLen a ≤ 3 then a else a / 2 ^ (8 * (byteLen a - 3))) then
        (byteLen a + 1) % 256 * 2 ^ 24 +
          (if byteLen a ≤ 3 then a else a / 2 ^ (8 * (byteLen a - 3))) / 2 ^ 8 % 2 ^ 23
      else byteLen a % 256 * 2 ^ 24 +
          (if byteLen a ≤ 3 then a else a / 2 ^ (8 * (byteLen a - 3))) % 2 ^ 23) := by
  unfold TargetToCompact
  have h0 : ¬((a : ℤ) = 0) := by exact_mod_cast ha
  have hneg : ¬((a : ℤ) < 0) := not_lt.mpr (Int.natCast_nonneg a)
  rw [if_neg h0]
  simp only [hneg, if_false, Int.natAbs_ofNat]
  by_cases hcond : 2 ^ 23 ≤ (if byteLen a ≤ 3 then a else a / 2 ^ (8 * (byteLen a - 3)))
  · simp only [hcond, if_true]
  · simp only [hcond, if_false]

/-- C7: for every realistic compact nBits value `c`,
`TargetToCompact (CompactToTarget c) = c`. -/
theorem targetToCompact_compactToTarget (c : ℕ) (hc : RealisticCompact c) :
    TargetToCompact (CompactToTarget c) = c := by
  obtain ⟨hc32, hsign, hcase⟩ := hc
  set e := c / 2 ^ 24 with he
  set m := c % 2 ^ 23 with hm
  have hm24 : c % 2 ^ 24 = m := by rw [hm]; omega
  have hcm : c = e * 2 ^ 24 + m := by rw [he, ← hm24]; omega
  have hmlt : m < 2 ^ 23 := by rw [hm]; omega
  have hbit : ¬(c / 2 ^ 23 % 2 = 1) := by omega
  have he255 : e ≤ 255 := by rw [he]; omega
  have he3 : 3 ≤ e := by rcases hcase with ⟨h, _⟩ | ⟨h, _, _⟩ <;> omega
  have hmne : m ≠ 0 := by rcases hcase with ⟨_, h⟩ | ⟨_, h, _⟩ <;> omega
  -- CompactToTarget c = m · 2^(8(e−3))
  have hct : CompactToTarget c = ((m * 2 ^ (8 * (e - 3)) : ℕ) : ℤ) := by
    unfold CompactToTarget
    rw [← he, ← hm, if_neg hbit]
    by_cases he3' : e ≤ 3
    · have : e = 3 := by omega
      simp [this]
    · rw [if_neg he3']
  rw [hct, TargetToCompact_pos _ (by positivity)]
  have hpow : (2 : ℕ) ^ (8 * (e - 3)) = 256 ^ (e - 3) := by
    rw [pow_mul]; norm_num
  rcases hcase with ⟨-, hm16⟩ | ⟨he4, hm15, hm16⟩
  · -- normalized three-byte mantissa, exponent ≥ 3
    have hblm : byteLen m = 3 := by
      rw [byteLen_eq_iff m 3 (by norm_num)]
      exact ⟨hm16, by omega⟩
    have hbl : byteLen (m * 2 ^ (8 * (e - 3))) = e := by
      rw [hpow, byteLen_mul_pow m (e - 3) hmne, hblm]; omega
    rw [hbl]
    have hmant : (if e ≤ 3 then m * 2 ^ (8 * (e - 3))
        else m * 2 ^ (8 * (e - 3)) / 2 ^ (8 * (e - 3))) = m := by
      by_cases h : e ≤ 3
      · have h3 : e = 3 := by omega
        rw [if_pos h, h3]
        norm_num
      · rw [if_neg h]
        exact Nat.mul_div_cancel m (by positivity)
    rw [hmant, if_neg (by omega), Nat.mod_eq_of_lt hmlt]
    omega
  · -- two-byte mantissa in [0x8000, 0xffff], exponent ≥ 4
    have hblm : byteLen m = 2 := by
      rw [byteLen_eq_iff m 2 (by norm_num)]
      constructor <;> omega
    have hbl : byteLen (m * 2 ^ (8 * (e - 3))) = e - 1 := by
      rw [hpow, byteLen_mul_pow m (e - 3) hmne, hblm]; omega
    rw [hbl]
    have hmant : (if e - 1 ≤ 3 then m * 2 ^ (8 * (e - 3))
        else m * 2 ^ (8 * (e - 3)) / 2 ^ (8 * (e - 1 - 3))) = m * 2 ^ 8 := by
      by_cases h : e - 1 ≤ 3
      · have h8 : 8 * (e - 3) = 8 := by omega
        rw [if_pos h, h8]
      · rw [if_neg h]
        have hsplit : 8 * (e - 3) = 8 + 8 * (e - 1 - 3) := by omega
        rw [hsplit, pow_add, ← mul_assoc]
        exact Nat.mul_div_cancel _ (by positivity)
    rw [hmant, if_pos (by nlinarith)]
    have hdiv2 : m * 2 ^ 8 / 2 ^ 8 = m := Nat.mul_div_cancel m (by positivity)
    rw [hdiv2, Nat.mod_eq_of_lt (by omega)]
    omega

/-- C7 witness: the Bitcoin difficulty-1 compact value `0x1d00ffff` is realistic
and round-trips. -/
theorem targetToCompact_compactToTarget_witness :
    RealisticCompact 0x1d00ffff ∧
      TargetToCompact (CompactToTarget 0x1d00ffff) = 0x1d00ffff :=
  ⟨by decide, targetToCompact_compactToTarget 0x1d00ffff (by decide)⟩

/-! ## Merkle trees (`internal/work/template.go`, claim C3)

Hash values are modelled abstractly: `combine l r` stands for
`DoubleSHA256(l ++ r)` on 32-byte strings, and the hex encode/decode pairs in
the Go code (branches travel as hex strings) are bijections that cancel, so
they are not represented. -/

section Merkle

variable {α : Type _} (combine : α → α → α)

/-- The pairing pass shared by the merkle helpers: combine `l[i]` with
`l[i+1]`, duplicating the last element when the count is odd.  This is the
inner loop of `ComputeMerkleBranches` (`right = left` on the odd tail). -/
def pairUp : List α → List α
  | [] => []
  | [x] => [combine x x]
  | x :: y :: rest => combine x y :: pairUp rest

theorem pairUp_length : ∀ l : List α, (pairUp combine l).length = (l.length + 1) / 2
  | [] => by simp [pairUp]
  | [_] => by simp [pairUp]
  | _ :: _ :: rest => by
    simp only [pairUp, List.length_cons, pairUp_length rest]
    omega

/-- Go `work.ComputeMerkleBranches`: the sibling path from the coinbase leaf to
the root.  At each level `hashes[0]` is emitted and the remaining hashes are
paired for the next level. -/
def ComputeMerkleBranches : List α → List α
  | [] => []
  | [x] => [x]
  | x :: y :: rest => x :: ComputeMerkleBranches (pairUp combine (y :: rest))
termination_by l => l.length
decreasing_by
  simp only [pairUp_length, List.length_cons]
  omega

/-- Go `work.ComputeMerkleRoot`: folds the coinbase hash through the branches
(`current = DoubleSHA256(current ++ branch)` at each step). -/
def ComputeMerkleRoot (coinbaseHash : α) (branches : List α) : α :=
  branches.foldl combine coinbaseHash

/-- The odd-level duplication of `ComputeFullMerkleRoot`: append a copy of the
last element when the level has odd length. -/
def dupPad : List α → List α
  | [] => []
  | x :: xs =>
    if (x :: xs).length % 2 ≠ 0 then (x :: xs) ++ [(x :: xs).getLast (by simp)]
    else x :: xs

theorem dupPad_length (l : List α) : (dupPad l).length = l.length + l.length % 2 := by
  cases l with
  | nil => simp [dupPad]
  | cons x xs =>
    simp only [dupPad]
    by_cases h : (x :: xs).length % 2 ≠ 0
    · rw [if_pos h]
      simp only [List.length_append, List.length_cons, List.length_nil] at h ⊢
      omega
    · rw [if_neg h]
      simp only [List.length_cons] at h ⊢
      omega

/-- Combining adjacent pairs of an (even-length) level, the level-building
loop of `ComputeFullMerkleRoot`. -/
def pairEven : List α → List α
  | x :: y :: rest => combine x y :: pairEven rest
  | _ => []

theorem pairEven_length : ∀ l : List α, (pairEven combine l).length = l.length / 2
  | [] => by simp [pairEven]
  | [_] => by simp [pairEven]
  | _ :: _ :: rest => by
    simp only [pairEven, List.length_cons, pairEven_length rest]
    omega

/-- The `for len(hashes) > 1` loop of `work.ComputeFullMerkleRoot`: repeatedly
pad to even length and pair up, until at most one hash remains. -/
def fullRounds : List α → List α
  | [] => []
  | [x] => [x]
  | x :: y :: rest => fullRounds (pairEven combine (dupPad (x :: y :: rest)))
termination_by l => l.length
decreasing_by
  simp only [pairEven_length, dupPad_length, List.length_cons]
  omega

/-- Go `work.ComputeFullMerkleRoot`: the full bottom-up merkle root over a list of
txids (coinbase first), `none` for the empty list. -/
def ComputeFullMerkleRoot (txids : List α) : Option α :=
  match fullRounds combine txids with
  | [x] => some x
  | _ => none

theorem pairEven_dupPad : ∀ l : List α, pairEven combine (dupPad l) = pairUp combine l
  | [] => rfl
  | [x] => by simp [dupPad, pairEven, pairUp]
  | [x, y] => by simp [dupPad, pairEven, pairUp]
  | x :: y :: z :: rest => by
    have ih := pairEven_dupPad (z :: rest)
    have hlast : (x :: y :: z :: rest).getLast (by simp) =
        (z :: rest).getLast (by simp) := by
      rw [List.getLast_cons (by simp), List.getLast_cons (by simp)]
    by_cases h : (z :: rest).length % 2 ≠ 0
    · have h2 : (x :: y :: z :: rest).length % 2 ≠ 0 := by
        simp only [List.length_cons] at h ⊢
        omega
      have hd : dupPad (x :: y :: z :: rest) = x :: y :: dupPad (z :: rest) := by
        simp only [dupPad]
        rw [if_pos h2, if_pos h, hlast]
        simp
      rw [hd, pairEven, ih, pairUp]
    · have h2 : ¬((x :: y :: z :: rest).length % 2 ≠ 0) := by
        simp only [List.length_cons] at h ⊢
        omega
      have hd : dupPad (x :: y :: z :: rest) = x :: y :: dupPad (z :: rest) := by
        simp only [dupPad]
        rw [if_neg h2, if_neg h]
      rw [hd, pairEven, ih, pairUp]

theorem fullRounds_eq_branches_fold (n : ℕ) :
    ∀ (c : α) (T : List α), T.length ≤ n →
      fullRounds combine (c :: T) =
        [(ComputeMerkleBranches combine T).foldl combine c] := by
  induction n with
  | zero =>
    intro c T hT
    have hT0 : T = [] := List.length_eq_zero.mp (by omega)
    subst hT0
    simp [fullRounds, ComputeMerkleBranches]
  | succ n ih =>
    intro c T hT
    match T with
    | [] => simp [fullRounds, ComputeMerkleBranches]
    | [t] =>
      show fullRounds combine (c :: [t]) = _
      rw [fullRounds, pairEven_dupPad]
      simp [pairUp, fullRounds, ComputeMerkleBranches]
    | t :: u :: rest =>
      rw [fullRounds, pairEven_dupPad]
      show fullRounds combine (combine c t :: pairUp combine (u :: rest)) = _
      rw [ih (combine c t) (pairUp combine (u :: rest)) (by
        simp only [pairUp_length, List.length_cons]
        simp only [List.length_cons] at hT
        omega)]
      rw [ComputeMerkleBranches]
      simp [List.foldl_cons]

/-- C3: for every coinbase hash `c` and list `T` of non-coinbase txids, folding
`c` through the branches produced by `ComputeMerkleBranches T` (via
`ComputeMerkleRoot`) yields exactly the root `ComputeFullMerkleRoot` computes
bottom-up over the full leaf list `c :: T` with last-element duplication at odd
levels. -/
theorem computeFullMerkleRoot_eq_branches {α : Type _} (combine : α → α → α)
    (c : α) (T : List α) :
    ComputeFullMerkleRoot combine (c :: T) =
      some (ComputeMerkleRoot combine c (ComputeMerkleBranches combine T)) := by
  unfold ComputeFullMerkleRoot ComputeMerkleRoot
  rw [fullRounds_eq_branches_fold combine T.length c T le_rfl]

end Merkle

/-! ## Share model (`internal/types/share.go`) -/

/-- Go `types.ShareHeader`: an 80-byte Bitcoin-compatible block header. -/
structure ShareHeader where
  version : ℤ
  prevBlockHash : List ℕ
  merkleRoot : List ℕ
  timestamp : ℕ
  bits : ℕ
  nonce : ℕ
deriving DecidableEq, Repr

/-- Go `ShareHeader.Serialize`: 4-byte LE version (as `uint32`, i.e. two's
complement of the `int32`), raw prev-block-hash and merkle root, then LE
timestamp, bits and nonce. -/
def SerializeHeader (h : ShareHeader) : List ℕ :=
  le32 (h.version % 2 ^ 32).toNat ++ h.prevBlockHash ++ h.merkleRoot ++
    le32 h.timestamp ++ le32 h.bits ++ le32 h.nonce

/-- Go `types.Share`: a share in the sharechain.  `hashCache` models the private
`hash *[32]byte` memoization field (`none` = nil pointer). -/
structure Share where
  header : ShareHeader
  shareVersion : ℕ
  prevShareHash : List ℕ
  shareTarget : Option ℤ
  minerAddress : String
  coinbaseTx : List ℕ
  shareChainNonce : ℕ
  hashCache : Option (List ℕ)
deriving DecidableEq, Repr

instance : Inhabited ShareHeader := ⟨⟨0, [], [], 0, 0, 0⟩⟩

instance : Inhabited Share := ⟨⟨default, 0, [], none, "", [], 0, none⟩⟩

/-- Go `Share.Hash`: returns the double-SHA256 of the serialized header, cached
after the first computation.  The hash function `dsha` is a parameter (SHA-256
itself is opaque to this development); the result is the returned hash together
with the share as mutated by the call. -/
def Share.Hash (dsha : List ℕ → List ℕ) (s : Share) : List ℕ × Share :=
  match s.hashCache with
  | some h => (h, s)
  | none =>
    let h := dsha (SerializeHeader s.header)
    (h, { s with hashCache := some h })

/-- Big-endian byte-string to natural number, as `big.Int.SetBytes`. -/
def bytesBE (l : List ℕ) : ℕ := l.foldl (fun acc b => acc * 2 ^ 8 + b) 0

/-- Go `util.HashMeetsTarget`: a hash (little-endian 32 bytes) meets a target iff
its byte-reversal, read as a big-endian integer, is ≤ the target. -/
def HashMeetsTarget (hash : List ℕ) (target : ℤ) : Bool :=
  decide ((bytesBE hash.reverse : ℤ) ≤ target)

/-! ## PPLNS engine (`internal/pplns`, claims C1 and C4) -/

/-- Go `pplns.Window`: the PPLNS sliding window of shares (newest first) with the
max target used for weights. -/
structure Window where
  shares : List Share
  maxTarget : ℤ

/-- Go `Window.ShareWeight`: weight = `maxTarget / shareTarget` (Euclidean
division of `big.Int`), or 1 when the target is nil or zero. -/
def Window.ShareWeight (w : Window) (share : Share) : ℤ :=
  match share.shareTarget with
  | none => 1
  | some t => if t = 0 then 1 else w.maxTarget.ediv t

/-- The per-address entry of `Window.MinerWeights`: total weight of the shares
in the window carrying this miner address. -/
def Window.MinerWeight (w : Window) (addr : String) : ℤ :=
  ((w.shares.filter (fun s => s.minerAddress = addr)).map w.ShareWeight).sum

/-- Go `Window.TotalWeight`: total weight of all shares in the window. -/
def Window.TotalWeight (w : Window) : ℤ :=
  (w.shares.map w.ShareWeight).sum

/-- Go `Window.ShareCount`. -/
def Window.ShareCount (w : Window) : ℕ := w.shares.length

/-- The sorted distinct miner addresses of the window: the key set of
`Window.MinerWeights`, sorted ascending by `sort.Strings` in
`CalculatePayouts`. -/
def Window.addresses (w : Window) : List String :=
  List.insertionSort (· ≤ ·) (w.shares.map Share.minerAddress).dedup

/-- Go `types.PayoutEntry`. -/
structure PayoutEntry where
  address : String
  amount : ℤ
deriving DecidableEq, Repr

/-- The `payouts` map of `CalculatePayouts`: its key set together with the
amount function (0 off the keys, exactly as a missing Go map key reads as 0). -/
structure PayMap where
  keys : List String
  amt : String → ℤ

/-- Total value held in the map. -/
def PayMap.sum (m : PayMap) : ℤ := (m.keys.map m.amt).sum

/-- Go `payouts[k] += v` (inserting `k` when absent). -/
def PayMap.addTo (m : PayMap) (k : String) (v : ℤ) : PayMap where
  keys := if k ∈ m.keys then m.keys else m.keys ++ [k]
  amt := fun a => if a = k then m.amt k + v else m.amt a

/-- Go `delete(payouts, k)`. -/
def PayMap.deleteKey (m : PayMap) (k : String) : PayMap where
  keys := m.keys.erase k
  amt := fun a => if a = k then 0 else m.amt a

/-- Map well-formedness: distinct keys and zero off the keys. -/
def PayMap.WF (m : PayMap) : Prop :=
  m.keys.Nodup ∧ ∀ a, a ∉ m.keys → m.amt a = 0

/-- Fuel-driven floor base-2 logarithm on naturals (structural recursion so the
kernel can evaluate it; the fuel argument is always at least the input).
`natLog2Aux n n` is the largest `k` with `2 ^ k ≤ n`, and `0` for `n ≤ 1`. -/
def natLog2Aux : ℕ → ℕ → ℕ
  | 0, _ => 0
  | fuel + 1, n => if n ≤ 1 then 0 else natLog2Aux fuel (n / 2) + 1

/-- Floor base-2 logarithm of a natural number (`0` for `n ≤ 1`). -/
def natLog2 (n : ℕ) : ℕ := natLog2Aux n n

/-- Floor base-2 logarithm of a positive rational `q = n / d`: it is either
`natLog2 n - natLog2 d` or one less, and the comparison `2 ^ (a - b) ≤ n / d`
(cleared of denominators: `d * 2 ^ a ≤ n * 2 ^ b`) decides which. -/
def ratLog2 (q : ℚ) : ℤ :=
  let n := q.num.toNat
  let a := natLog2 n
  let b := natLog2 q.den
  if q.den * 2 ^ a ≤ n * 2 ^ b then (a : ℤ) - b else (a : ℤ) - b - 1

/-- Round a rational to the nearest integer, ties to the even integer — the
IEEE-754 default rounding direction used by all Go `float64` arithmetic. -/
def roundHalfEven (q : ℚ) : ℤ :=
  if q - ⌊q⌋ < 1 / 2 then ⌊q⌋
  else if (1 : ℚ) / 2 < q - ⌊q⌋ then ⌊q⌋ + 1
  else if ⌊q⌋ % 2 = 0 then ⌊q⌋ else ⌊q⌋ + 1

/-- IEEE-754 binary64 (`float64`) rounding of an exact rational value: the
significand is rounded to 53 bits, nearest, ties to even, and the exponent of
its least significant bit is clamped below so that it is never finer than
`2 ^ (-1074)` (the subnormal range).  Overflow to infinity is not modelled:
whenever the rounded result has magnitude below `2 ^ 1024` — in particular
everywhere the fee theorem's hypotheses hold — this agrees exactly with
binary64 arithmetic on the exact operands. -/
def float64Round (q : ℚ) : ℚ :=
  if q = 0 then 0
  else
    let e : ℤ := max (ratLog2 |q|) (-1022)
    let m : ℤ := roundHalfEven (|q| * (2 : ℚ) ^ (52 - e))
    (if q < 0 then -1 else 1) * (m : ℚ) * (2 : ℚ) ^ (e - 52)

/-- Go `pplns.Calculator`.  `finderFeePercent` is a `float64` in Go; the field
holds its exact rational value, and `Calculator.finderFee` rounds each
arithmetic step on it to binary64. -/
structure Calculator where
  finderFeePercent : ℚ
  dustThresholdSats : ℤ

/-- Go's `int64(x)` on a `float64`: truncation toward zero
(`num.tdiv den` on the exact rational value of the float). -/
def truncInt64 (q : ℚ) : ℤ := q.num.tdiv q.den

/-- The finder fee of `CalculatePayouts`:
Go `int64(float64(totalReward) * c.finderFeePercent / 100.0)`.  The `int64` to
`float64` conversion, the multiplication and the division each round to
binary64 (`float64Round`), and the outer `int64(...)` truncates toward zero
(Go leaves that conversion unspecified when the value does not fit in an
`int64`; the model truncates regardless, and the fee theorem's hypotheses keep
the value in range). -/
def Calculator.finderFee (c : Calculator) (totalReward : ℤ) : ℤ :=
  truncInt64 (float64Round
    (float64Round (float64Round (totalReward : ℚ) * c.finderFeePercent) / 100))

/-- One miner's proportional payout
(`distributableReward * weight / totalWeight`, Euclidean `big.Int` division)
with the `IsInt64` safety clamp of the source. -/
def minerPayout (distributableReward totalWeight weight : ℤ) : ℤ :=
  let payout := (distributableReward * weight).ediv totalWeight
  if payout < -(2 ^ 63) ∨ 2 ^ 63 ≤ payout then distributableReward else payout

/-- The proportional-distribution loop of `CalculatePayouts`: for each address
(in sorted order) whose payout is positive, record it in the map. -/
def basePayouts (addrs : List String) (distributableReward totalWeight : ℤ)
    (weight : String → ℤ) : PayMap where
  keys := addrs.filter (fun a => 0 < minerPayout distributableReward totalWeight (weight a))
  amt := fun a =>
    if a ∈ addrs ∧ 0 < minerPayout distributableReward totalWeight (weight a) then
      minerPayout distributableReward totalWeight (weight a)
    else 0

/-- The dust-consolidation step of `CalculatePayouts`: payouts below the dust
threshold (other than the finder's) are deleted and their sum is folded into
the finder's payout, or the first remaining miner when there is no finder —
unless all payouts would be dust, in which case nothing changes. -/
def consolidateDust (m : PayMap) (finderAddress : String) (dustThresholdSats : ℤ)
    (addresses : List String) : PayMap :=
  let dustAddresses :=
    m.keys.filter (fun a => m.amt a < dustThresholdSats ∧ a ≠ finderAddress)
  let dustTotal := (dustAddresses.map m.amt).sum
  if dustAddresses.length < m.keys.length then
    let mDel := dustAddresses.foldl PayMap.deleteKey m
    if 0 < dustTotal then
      if finderAddress ≠ "" then mDel.addTo finderAddress dustTotal
      else
        match addresses.find? (fun a => a ∈ mDel.keys) with
        | some a => mDel.addTo a dustTotal
        | none => mDel
    else mDel
  else m

/-- The `sort.Slice` comparator of `CalculatePayouts`: amount descending, then
address ascending. -/
def payoutOrder (p q : PayoutEntry) : Prop :=
  q.amount < p.amount ∨ (p.amount = q.amount ∧ p.address ≤ q.address)

instance : DecidableRel payoutOrder := fun p q => by
  unfold payoutOrder
  infer_instance

/-- Go `Calculator.CalculatePayouts`: computes the PPLNS payout list for a window,
total reward and finder address. -/
def CalculatePayouts (c : Calculator) (window : Window) (totalReward : ℤ)
    (finderAddress : String) : List PayoutEntry :=
  if window.ShareCount = 0 ∨ totalReward ≤ 0 then []
  else
    let finderFee := c.finderFee totalReward
    let distributableReward := totalReward - finderFee
    let totalWeight := window.TotalWeight
    if totalWeight = 0 then []
    else
      let addresses := window.addresses
      let m0 := basePayouts addresses distributableReward totalWeight window.MinerWeight
      let distributed0 := m0.sum
      let m1 :=
        if finderAddress ≠ "" ∧ 0 < finderFee then m0.addTo finderAddress finderFee
        else m0
      let distributed1 :=
        if finderAddress ≠ "" ∧ 0 < finderFee then distributed0 + finderFee
        else distributed0
      let remainder := totalReward - distributed1
      let m2 :=
        if 0 < remainder then
          if finderAddress ≠ "" then m1.addTo finderAddress remainder
          else if addresses = [] then m1
          else m1.addTo addresses.headI remainder
        else m1
      let m3 := consolidateDust m2 finderAddress c.dustThresholdSats addresses
      List.insertionSort payoutOrder (m3.keys.map fun a => PayoutEntry.mk a (m3.amt a))

/-! ### PayMap lemmas -/

theorem sum_map_update {α : Type _} [DecidableEq α] {l : List α} (hnd : l.Nodup)
    {k : α} (hk : k ∈ l) (g : α → ℤ) (v : ℤ) :
    (l.map fun a => if a = k then g k + v else g a).sum = (l.map g).sum + v := by
  induction l with
  | nil => cases hk
  | cons x t ih =>
    obtain ⟨hxt, hndt⟩ := List.nodup_cons.mp hnd
    rcases List.mem_cons.mp hk with rfl | hkt
    · simp only [List.map_cons, List.sum_cons, if_pos rfl]
      rw [List.map_congr_left (g := g) fun a ha => if_neg fun (h : a = k) => hxt (h ▸ ha)]
      simp
      ring
    · have hx : x ≠ k := fun h => hxt (h ▸ hkt)
      simp only [List.map_cons, List.sum_cons, if_neg hx]
      rw [ih hndt hkt]
      ring

theorem PayMap.amt_addTo (m : PayMap) (k : String) (v : ℤ) (a : String) :
    (m.addTo k v).amt a = if a = k then m.amt k + v else m.amt a := rfl

theorem PayMap.mem_addTo (m : PayMap) (k : String) (v : ℤ) (a : String) :
    a ∈ (m.addTo k v).keys ↔ a ∈ m.keys ∨ a = k := by
  unfold PayMap.addTo
  by_cases hk : k ∈ m.keys
  · simp only [if_pos hk]
    constructor
    · exact Or.inl
    · rintro (h | rfl) <;> [exact h; exact hk]
  · simp [if_neg hk, List.mem_append]

theorem PayMap.WF_addTo (m : PayMap) (hwf : m.WF) (k : String) (v : ℤ) :
    (m.addTo k v).WF := by
  obtain ⟨hnd, hz⟩ := hwf
  constructor
  · unfold PayMap.addTo
    by_cases hk : k ∈ m.keys
    · simpa [if_pos hk] using hnd
    · simp only [if_neg hk]
      exact List.Nodup.append hnd (List.nodup_singleton k) (by
        intro a ha hb
        simp only [List.mem_singleton] at hb
        exact hk (hb ▸ ha))
  · intro a ha
    rw [PayMap.mem_addTo] at ha
    push_neg at ha
    rw [PayMap.amt_addTo, if_neg ha.2]
    exact hz a ha.1

theorem PayMap.sum_addTo (m : PayMap) (hwf : m.WF) (k : String) (v : ℤ) :
    (m.addTo k v).sum = m.sum + v := by
  obtain ⟨hnd, hz⟩ := hwf
  show ((if k ∈ m.keys then m.keys else m.keys ++ [k]).map
    fun a => if a = k then m.amt k + v else m.amt a).sum = _
  by_cases hk : k ∈ m.keys
  · rw [if_pos hk]
    exact sum_map_update hnd hk m.amt v
  · rw [if_neg hk, List.map_append, List.sum_append]
    rw [List.map_congr_left (g := m.amt) fun a ha => if_neg fun (h : a = k) => hk (h ▸ ha)]
    show (m.keys.map m.amt).sum + ((if k = k then m.amt k + v else m.amt k) + 0) = _
    rw [if_pos rfl, hz k hk]
    unfold PayMap.sum
    ring

theorem PayMap.amt_deleteKey (m : PayMap) (k : String) (a : String) :
    (m.deleteKey k).amt a = if a = k then 0 else m.amt a := rfl

theorem PayMap.keys_deleteKey (m : PayMap) (hnd : m.keys.Nodup) (k : String) :
    (m.deleteKey k).keys = m.keys.filter (fun a => a ≠ k) := by
  show m.keys.erase k = _
  rw [hnd.erase_eq_filter]
  apply List.filter_congr
  intro a _
  by_cases h : a = k <;> simp [h]

theorem PayMap.WF_deleteKey (m : PayMap) (hwf : m.WF) (k : String) :
    (m.deleteKey k).WF := by
  obtain ⟨hnd, hz⟩ := hwf
  refine ⟨?_, ?_⟩
  · rw [PayMap.keys_deleteKey m hnd]
    exact hnd.filter _
  · intro a ha
    rw [PayMap.keys_deleteKey m hnd] at ha
    rw [PayMap.amt_deleteKey]
    by_cases hak : a = k
    · rw [if_pos hak]
    · rw [if_neg hak]
      apply hz
      intro hmem
      exact ha (List.mem_filter.mpr ⟨hmem, by simpa using hak⟩)

theorem sum_filter_ne {α : Type _} [DecidableEq α] {l : List α} (hnd : l.Nodup)
    (g : α → ℤ) {k : α} (hk : k ∈ l) :
    ((l.filter fun a => a ≠ k).map g).sum = (l.map g).sum - g k := by
  induction l with
  | nil => cases hk
  | cons x t ih =>
    obtain ⟨hxt, hndt⟩ := List.nodup_cons.mp hnd
    rcases List.mem_cons.mp hk with rfl | hkt
    · rw [List.filter_cons_of_neg (by simp)]
      have ht : t.filter (fun a => a ≠ k) = t :=
        List.filter_eq_self.mpr fun a ha => by
          simp only [ne_eq, decide_not, Bool.not_eq_eq_eq_not, Bool.not_true,
            decide_eq_false_iff_not]
          exact fun h => hxt (h ▸ ha)
      rw [ht]
      simp only [List.map_cons, List.sum_cons]
      ring
    · have hx : x ≠ k := fun h => hxt (h ▸ hkt)
      rw [List.filter_cons_of_pos (by simpa using hx)]
      simp only [List.map_cons, List.sum_cons, ih hndt hkt]
      ring

theorem PayMap.sum_deleteKey (m : PayMap) (hwf : m.WF) (k : String) (hk : k ∈ m.keys) :
    (m.deleteKey k).sum = m.sum - m.amt k := by
  obtain ⟨hnd, hz⟩ := hwf
  unfold PayMap.sum
  rw [PayMap.keys_deleteKey m hnd]
  rw [List.map_congr_left (g := m.amt) fun a ha => by
    rw [PayMap.amt_deleteKey, if_neg (by simpa using (List.mem_filter.mp ha).2)]]
  exact sum_filter_ne hnd m.amt hk

/-- Characterization of deleting a whole (duplicate-free) list of keys. -/
theorem foldl_deleteKey_spec (D : List String) (m : PayMap) (hwf : m.WF) (hD : D.Nodup) :
    (D.foldl PayMap.deleteKey m).WF ∧
      (∀ a, (D.foldl PayMap.deleteKey m).amt a = if a ∈ D then 0 else m.amt a) ∧
      (∀ a, a ∈ (D.foldl PayMap.deleteKey m).keys ↔ a ∈ m.keys ∧ a ∉ D) := by
  induction D generalizing m with
  | nil =>
    refine ⟨hwf, fun a => ?_, fun a => ?_⟩
    · show m.amt a = if a ∈ ([] : List String) then 0 else m.amt a
      rw [if_neg (List.not_mem_nil a)]
    · show a ∈ m.keys ↔ a ∈ m.keys ∧ a ∉ ([] : List String)
      exact ⟨fun h => ⟨h, List.not_mem_nil a⟩, fun h => h.1⟩
  | cons d t ih =>
    obtain ⟨hdt, hndt⟩ := List.nodup_cons.mp hD
    obtain ⟨ihwf, ihamt, ihmem⟩ := ih (m.deleteKey d) (m.WF_deleteKey hwf d) hndt
    refine ⟨ihwf, ?_, ?_⟩
    · intro a
      rw [List.foldl_cons, ihamt a, PayMap.amt_deleteKey]
      by_cases hat : a ∈ t
      · rw [if_pos hat, if_pos (List.mem_cons.mpr (Or.inr hat))]
      · rw [if_neg hat]
        by_cases had : a = d
        · rw [if_pos had, if_pos (List.mem_cons.mpr (Or.inl had))]
        · rw [if_neg had, if_neg (by simp [had, hat])]
    · intro a
      rw [List.foldl_cons, ihmem a]
      rw [PayMap.keys_deleteKey m hwf.1, List.mem_filter]
      constructor
      · rintro ⟨⟨ham, had⟩, hat⟩
        have had' : a ≠ d := by simpa using had
        exact ⟨ham, by simp [List.mem_cons, had', hat]⟩
      · rintro ⟨ham, hnot⟩
        simp only [List.mem_cons, not_or] at hnot
        exact ⟨⟨ham, by simpa using hnot.1⟩, hnot.2⟩

theorem foldl_deleteKey_sum (D : List String) (m : PayMap) (hwf : m.WF) (hD : D.Nodup)
    (hsub : ∀ a ∈ D, a ∈ m.keys) :
    (D.foldl PayMap.deleteKey m).sum = m.sum - (D.map m.amt).sum := by
  induction D generalizing m with
  | nil => simp
  | cons d t ih =>
    obtain ⟨hdt, hndt⟩ := List.nodup_cons.mp hD
    rw [List.foldl_cons]
    rw [ih (m.deleteKey d) (m.WF_deleteKey hwf d) hndt (by
      intro a ha
      rw [PayMap.keys_deleteKey m hwf.1, List.mem_filter]
      refine ⟨hsub a (List.mem_cons.mpr (Or.inr ha)), by
        simpa using fun (h : a = d) => hdt (h ▸ ha)⟩)]
    rw [PayMap.sum_deleteKey m hwf d (hsub d (List.mem_cons_self d t))]
    rw [List.map_congr_left (f := (m.deleteKey d).amt) (g := m.amt) fun a ha => by
      rw [PayMap.amt_deleteKey, if_neg fun (h : a = d) => hdt (h ▸ ha)]]
    simp only [List.map_cons, List.sum_cons]
    ring

theorem find?_congr' {α : Type _} {p q : α → Bool} :
    ∀ {l : List α}, (∀ a ∈ l, p a = q a) → l.find? p = l.find? q
  | [], _ => rfl
  | x :: t, h => by
    have hx := h x (List.mem_cons_self x t)
    rw [List.find?_cons, List.find?_cons, hx]
    cases q x with
    | true => rfl
    | false => exact find?_congr' fun a ha => h a (List.mem_cons.mpr (Or.inr ha))

/-- Full characterization of the dust-consolidation step, on a well-formed map
with positive amounts whose keys all occur in `addrs`. -/
theorem consolidateDust_props (m : PayMap) (finder : String) (dust : ℤ)
    (addrs : List String) (hwf : m.WF) (hpos : ∀ a ∈ m.keys, 0 < m.amt a)
    (hsub : finder = "" → ∀ a ∈ m.keys, a ∈ addrs) :
    (¬((m.keys.filter fun a => m.amt a < dust ∧ a ≠ finder).length < m.keys.length) →
        consolidateDust m finder dust addrs = m) ∧
    ((m.keys.filter fun a => m.amt a < dust ∧ a ≠ finder).length < m.keys.length →
      (∀ a ∈ m.keys.filter fun a => m.amt a < dust ∧ a ≠ finder,
          a ∉ (consolidateDust m finder dust addrs).keys) ∧
      (∀ a ∈ m.keys, a ∉ (m.keys.filter fun a => m.amt a < dust ∧ a ≠ finder) →
          a ∈ (consolidateDust m finder dust addrs).keys) ∧
      (consolidateDust m finder dust addrs).sum = m.sum ∧
      (finder ≠ "" →
        (consolidateDust m finder dust addrs).amt finder =
          m.amt finder +
            ((m.keys.filter fun a => m.amt a < dust ∧ a ≠ finder).map m.amt).sum ∧
        ∀ a, a ≠ finder → a ∉ (m.keys.filter fun a => m.amt a < dust ∧ a ≠ finder) →
          (consolidateDust m finder dust addrs).amt a = m.amt a) ∧
      (finder = "" →
        ∀ r₀, addrs.find? (fun a => decide (a ∈ m.keys ∧
            a ∉ m.keys.filter fun x => m.amt x < dust ∧ x ≠ finder)) = some r₀ →
          (consolidateDust m finder dust addrs).amt r₀ =
            m.amt r₀ +
              ((m.keys.filter fun a => m.amt a < dust ∧ a ≠ finder).map m.amt).sum ∧
          ∀ a, a ≠ r₀ → a ∉ (m.keys.filter fun a => m.amt a < dust ∧ a ≠ finder) →
            (consolidateDust m finder dust addrs).amt a = m.amt a)) := by
  classical
  set D := m.keys.filter fun a => m.amt a < dust ∧ a ≠ finder with hDdef
  have hDnodup : D.Nodup := hwf.1.filter _
  have hDsub : ∀ a ∈ D, a ∈ m.keys := fun a ha => (List.mem_filter.mp ha).1
  have hDmem : ∀ a, a ∈ D ↔ a ∈ m.keys ∧ m.amt a < dust ∧ a ≠ finder := by
    intro a
    rw [hDdef, List.mem_filter]
    simp
  set T := (D.map m.amt).sum with hTdef
  constructor
  · -- all-dust branch: nothing changes
    intro hlen
    unfold consolidateDust
    rw [if_neg hlen]
  · intro hlen
    obtain ⟨hmDelWf, hmDelAmt, hmDelMem⟩ := foldl_deleteKey_spec D m hwf hDnodup
    have hmDelSum : (D.foldl PayMap.deleteKey m).sum = m.sum - T :=
      foldl_deleteKey_sum D m hwf hDnodup hDsub
    set mDel := D.foldl PayMap.deleteKey m with hmDelDef
    -- the result of the branch taken by the code
    have hres : consolidateDust m finder dust addrs =
        (if 0 < T then
          if finder ≠ "" then mDel.addTo finder T
          else
            match addrs.find? (fun a => a ∈ mDel.keys) with
            | some a => mDel.addTo a T
            | none => mDel
        else mDel) := by
      unfold consolidateDust
      rw [if_pos hlen]
    by_cases hD : D = []
    · -- no dust entries at all: the fold is a no-op and nothing is added
      have hT0 : T = 0 := by rw [hTdef, hD]; rfl
      have hmDelEq : mDel = m := by rw [hmDelDef, hD]; rfl
      have hres0 : consolidateDust m finder dust addrs = m := by
        rw [hres, if_neg (by omega), hmDelEq]
      rw [hres0]
      refine ⟨fun a ha => absurd (hD ▸ ha) (List.not_mem_nil a),
        fun a ha _ => ha, rfl, fun _ => ⟨by omega, fun _ _ _ => rfl⟩,
        fun _ r₀ _ => ⟨by omega, fun _ _ _ => rfl⟩⟩
    · -- there is dust: it is deleted and its (positive) total is re-routed
      have hT : 0 < T := by
        apply List.sum_pos
        · intro x hx
          obtain ⟨a, ha, rfl⟩ := List.mem_map.mp hx
          exact hpos a (hDsub a ha)
        · simpa using hD
      by_cases hf : finder ≠ ""
      · have hres1 : consolidateDust m finder dust addrs = mDel.addTo finder T := by
          rw [hres, if_pos hT, if_pos hf]
        rw [hres1]
        have hfD : finder ∉ D := fun h => ((hDmem finder).mp h).2.2 rfl
        refine ⟨?_, ?_, ?_, ?_, ?_⟩
        · intro a ha
          rw [PayMap.mem_addTo]
          push_neg
          refine ⟨fun hmem => (((hmDelMem a).mp hmem).2) ha,
            fun h => ((hDmem a).mp ha).2.2 h⟩
        · intro a ha hnd
          rw [PayMap.mem_addTo]
          exact Or.inl ((hmDelMem a).mpr ⟨ha, hnd⟩)
        · rw [PayMap.sum_addTo mDel hmDelWf finder T, hmDelSum]
          ring
        · intro _
          constructor
          · rw [PayMap.amt_addTo, if_pos rfl, hmDelAmt finder, if_neg hfD]
          · intro a haf haD
            rw [PayMap.amt_addTo, if_neg haf, hmDelAmt a, if_neg haD]
        · intro hf'
          exact absurd hf' hf
      · push_neg at hf
        -- the remaining key set is nonempty, so the first-remaining search succeeds
        have hne : mDel.keys ≠ [] := by
          intro hnil
          have hsubD : ∀ a ∈ m.keys, a ∈ D := by
            intro a ha
            by_contra haD
            have : a ∈ mDel.keys := (hmDelMem a).mpr ⟨ha, haD⟩
            rw [hnil] at this
            exact List.not_mem_nil a this
          have : m.keys.length ≤ D.length :=
            (List.subperm_of_subset hwf.1 hsubD).length_le
          omega
        have hpredeq : ∀ a ∈ addrs, (decide (a ∈ mDel.keys)) =
            (decide (a ∈ m.keys ∧ a ∉ D)) :=
          fun a _ => decide_eq_decide.mpr (hmDelMem a)
        have hfindeq : addrs.find? (fun a => decide (a ∈ mDel.keys)) =
            addrs.find? (fun a => decide (a ∈ m.keys ∧ a ∉ D)) :=
          find?_congr' hpredeq
        obtain ⟨x, hx⟩ := List.exists_mem_of_ne_nil mDel.keys hne
        have hxaddr : x ∈ addrs := hsub hf x ((hmDelMem x).mp hx).1
        have hissome : (addrs.find? (fun a => decide (a ∈ mDel.keys))).isSome = true := by
          rw [List.find?_isSome]
          exact ⟨x, hxaddr, decide_eq_true hx⟩
        obtain ⟨r₀, hr₀⟩ := Option.isSome_iff_exists.mp hissome
        have hr₀pred : r₀ ∈ mDel.keys := by
          have := List.find?_some hr₀
          simpa using this
        have hr₀D : r₀ ∉ D := ((hmDelMem r₀).mp hr₀pred).2
        have hres2 : consolidateDust m finder dust addrs = mDel.addTo r₀ T := by
          rw [hres, if_pos hT, if_neg (by simpa using hf), hr₀]
        rw [hres2]
        refine ⟨?_, ?_, ?_, ?_, ?_⟩
        · intro a ha
          rw [PayMap.mem_addTo]
          push_neg
          refine ⟨fun hmem => (((hmDelMem a).mp hmem).2) ha, ?_⟩
          rintro rfl
          exact hr₀D ha
        · intro a ha hnd
          rw [PayMap.mem_addTo]
          exact Or.inl ((hmDelMem a).mpr ⟨ha, hnd⟩)
        · rw [PayMap.sum_addTo mDel hmDelWf r₀ T, hmDelSum]
          ring
        · intro hf'
          exact absurd hf hf'
        · intro _ r₁ hr₁
          rw [← hfindeq, hr₀] at hr₁
          injection hr₁ with hr₁
          subst hr₁
          constructor
          · rw [PayMap.amt_addTo, if_pos rfl, hmDelAmt r₀, if_neg hr₀D]
          · intro a har haD
            rw [PayMap.amt_addTo, if_neg har, hmDelAmt a, if_neg haD]

/-! ### Arithmetic and aggregation lemmas for the payout total -/

theorem truncInt64_eq_floor (q : ℚ) (hq : 0 ≤ q) : truncInt64 q = ⌊q⌋ := by
  unfold truncInt64
  rw [Int.tdiv_eq_ediv (Rat.num_nonneg.mpr hq) (Int.natCast_nonneg _)]
  conv_rhs => rw [← Rat.num_div_den q]
  rw [Rat.floor_intCast_div_natCast]

theorem truncInt64_nonneg (q : ℚ) (hq : 0 ≤ q) : 0 ≤ truncInt64 q :=
  Int.tdiv_nonneg (Rat.num_nonneg.mpr hq) (Int.natCast_nonneg _)

theorem truncInt64_le (q : ℚ) (r : ℤ) (hq : 0 ≤ q) (hqr : q ≤ (r : ℚ)) :
    truncInt64 q ≤ r := by
  rw [truncInt64_eq_floor q hq]
  calc ⌊q⌋ ≤ ⌊(r : ℚ)⌋ := Int.floor_le_floor hqr
  _ = r := Int.floor_intCast r

theorem truncInt64_intCast (k : ℤ) : truncInt64 (k : ℚ) = k := by
  unfold truncInt64
  rw [Rat.num_intCast, Rat.den_intCast]
  simp

theorem natLog2Aux_eq (fuel n : ℕ) (h : n ≤ fuel) :
    natLog2Aux fuel n = Nat.log 2 n := by
  induction fuel generalizing n with
  | zero =>
    interval_cases n
    simp [natLog2Aux]
  | succ fuel ih =>
    by_cases hn : n ≤ 1
    · interval_cases n <;> simp [natLog2Aux]
    · have hdiv : n / 2 ≤ fuel := by
        have : n / 2 < n := Nat.div_lt_self (by omega) (by norm_num)
        omega
      rw [natLog2Aux, if_neg hn, ih _ hdiv]
      have hdb : Nat.log 2 (n / 2) = Nat.log 2 n - 1 := Nat.log_div_base 2 n
      have hpos : 0 < Nat.log 2 n := Nat.log_pos (by norm_num) (by omega)
      omega

theorem natLog2_eq (n : ℕ) : natLog2 n = Nat.log 2 n := natLog2Aux_eq n n le_rfl

theorem natLog2_pow_le (n : ℕ) (hn : n ≠ 0) : 2 ^ natLog2 n ≤ n := by
  rw [natLog2_eq]
  exact Nat.pow_log_le_self 2 hn

theorem natLog2_lt_pow (n : ℕ) : n < 2 ^ (natLog2 n + 1) := by
  rw [natLog2_eq]
  exact Nat.lt_pow_succ_log_self (by norm_num) n

theorem natLog2_one : natLog2 1 = 0 := rfl

theorem ratLog2_intCast (k : ℤ) (hk : 0 < k) :
    ratLog2 (k : ℚ) = natLog2 k.toNat := by
  have hnum : ((k : ℚ)).num = k := Rat.num_intCast k
  have hden : ((k : ℚ)).den = 1 := Rat.den_intCast k
  have hk0 : k.toNat ≠ 0 := by omega
  unfold ratLog2
  rw [hnum, hden, natLog2_one]
  rw [if_pos (by simpa using natLog2_pow_le k.toNat hk0)]
  simp

theorem roundHalfEven_intCast (k : ℤ) : roundHalfEven (k : ℚ) = k := by
  unfold roundHalfEven
  rw [Int.floor_intCast]
  rw [if_pos (by norm_num)]

theorem roundHalfEven_nonneg (q : ℚ) (hq : 0 ≤ q) : 0 ≤ roundHalfEven q := by
  unfold roundHalfEven
  have h : 0 ≤ ⌊q⌋ := Int.floor_nonneg.mpr hq
  split_ifs <;> omega

/-- Integers of magnitude below `2 ^ 53` are exactly representable in binary64,
so `float64Round` is the identity on them. -/
theorem float64Round_intCast (k : ℤ) (hk : |k| < 2 ^ 53) :
    float64Round (k : ℚ) = (k : ℚ) := by
  by_cases h0 : k = 0
  · simp [h0, float64Round]
  · have habs : (0 : ℤ) < |k| := abs_pos.mpr h0
    have hq0 : ((k : ℚ)) ≠ 0 := Int.cast_ne_zero.mpr h0
    have hqabs : |(k : ℚ)| = ((|k| : ℤ) : ℚ) := by push_cast; rfl
    set a := natLog2 |k|.toNat with ha
    have hlog : ratLog2 |(k : ℚ)| = a := by
      rw [hqabs, ratLog2_intCast |k| habs]
    have ha52 : a ≤ 52 := by
      by_contra hgt
      push_neg at hgt
      have h1 : 2 ^ 53 ≤ 2 ^ a := Nat.pow_le_pow_right (by norm_num) hgt
      have h2 : 2 ^ a ≤ |k|.toNat := natLog2_pow_le _ (by omega)
      omega
    have hmax : max (ratLog2 |(k : ℚ)|) (-1022) = (a : ℤ) := by
      rw [hlog]
      exact max_eq_left (by omega)
    have hsc : (52 : ℤ) - a = ((52 - a : ℕ) : ℤ) := by omega
    have hzpow : (2 : ℚ) ^ ((52 : ℤ) - a) = ((2 ^ (52 - a) : ℕ) : ℚ) := by
      rw [hsc, zpow_natCast]
      push_cast
      ring
    have hprod : |(k : ℚ)| * (2 : ℚ) ^ ((52 : ℤ) - a) = (((|k| * 2 ^ (52 - a) : ℤ)) : ℚ) := by
      rw [hqabs, hzpow]
      push_cast
      ring
    unfold float64Round
    rw [if_neg hq0, hmax]
    show (if (k : ℚ) < 0 then (-1 : ℚ) else 1) *
        ((roundHalfEven (|(k : ℚ)| * (2 : ℚ) ^ ((52 : ℤ) - (a : ℤ)))) : ℚ) *
        (2 : ℚ) ^ ((a : ℤ) - 52) = (k : ℚ)
    rw [hprod, roundHalfEven_intCast]
    have hinv : (2 : ℚ) ^ ((a : ℤ) - 52) = (((2 ^ (52 - a) : ℕ) : ℚ))⁻¹ := by
      rw [show (a : ℤ) - 52 = -((52 : ℤ) - a) by ring, zpow_neg, hzpow]
    rw [hinv]
    have hne : (((2 ^ (52 - a) : ℕ) : ℚ)) ≠ 0 := by
      positivity
    rcases lt_trichotomy k 0 with hk0 | hk0 | hk0
    · rw [if_pos (by exact_mod_cast hk0)]
      have habsk : |k| = -k := abs_of_neg hk0
      push_cast [habsk]
      field_simp
    · exact absurd hk0 h0
    · rw [if_neg (by push_neg; exact_mod_cast le_of_lt hk0)]
      have habsk : |k| = k := abs_of_pos hk0
      push_cast [habsk]
      field_simp

theorem float64Round_nonneg (q : ℚ) (hq : 0 ≤ q) : 0 ≤ float64Round q := by
  by_cases h0 : q = 0
  · simp [h0, float64Round]
  · unfold float64Round
    rw [if_neg h0, if_neg (not_lt.mpr hq)]
    show (0 : ℚ) ≤ 1 *
        ((roundHalfEven (|q| * (2 : ℚ) ^ ((52 : ℤ) - max (ratLog2 |q|) (-1022)))) : ℚ) *
        (2 : ℚ) ^ (max (ratLog2 |q|) (-1022) - 52)
    have hm : 0 ≤ roundHalfEven (|q| * (2 : ℚ) ^ ((52 : ℤ) - max (ratLog2 |q|) (-1022))) :=
      roundHalfEven_nonneg _ (mul_nonneg (abs_nonneg q) (le_of_lt (zpow_pos (by norm_num) _)))
    have h1 : (0 : ℚ) ≤
        ((roundHalfEven (|q| * (2 : ℚ) ^ ((52 : ℤ) - max (ratLog2 |q|) (-1022)))) : ℚ) := by
      exact_mod_cast hm
    have h2 : (0 : ℚ) ≤ (2 : ℚ) ^ (max (ratLog2 |q|) (-1022) - 52) :=
      le_of_lt (zpow_pos (by norm_num) _)
    rw [one_mul]
    exact mul_nonneg h1 h2

/-- The finder fee is nonnegative whenever the reward and the fee percentage
are: every rounding step preserves the sign. -/
theorem Calculator.finderFee_nonneg (c : Calculator) (r : ℤ)
    (hr : 0 ≤ r) (hpct : 0 ≤ c.finderFeePercent) : 0 ≤ c.finderFee r := by
  unfold Calculator.finderFee
  have h1 : (0 : ℚ) ≤ float64Round (r : ℚ) :=
    float64Round_nonneg _ (by exact_mod_cast hr)
  have h2 : (0 : ℚ) ≤ float64Round (float64Round (r : ℚ) * c.finderFeePercent) :=
    float64Round_nonneg _ (mul_nonneg h1 hpct)
  have h3 : (0 : ℚ) ≤
      float64Round (float64Round (float64Round (r : ℚ) * c.finderFeePercent) / 100) :=
    float64Round_nonneg _ (div_nonneg h2 (by norm_num))
  exact truncInt64_nonneg _ h3

theorem ediv_add_ediv_le (a b W : ℤ) (hW : 0 < W) : a / W + b / W ≤ (a + b) / W := by
  rw [Int.le_ediv_iff_mul_le hW]
  have h1 : W * (a / W) ≤ a := by
    have := Int.ediv_add_emod a W
    have := Int.emod_nonneg a (ne_of_gt hW)
    omega
  have h2 : W * (b / W) ≤ b := by
    have := Int.ediv_add_emod b W
    have := Int.emod_nonneg b (ne_of_gt hW)
    omega
  calc (a / W + b / W) * W = W * (a / W) + W * (b / W) := by ring
  _ ≤ a + b := by omega

theorem sum_map_ediv_le {α : Type _} (L : List α) (f : α → ℤ) (D W : ℤ) (hW : 0 < W) :
    (L.map fun a => D * f a / W).sum ≤ D * (L.map f).sum / W := by
  induction L with
  | nil => simp
  | cons x t ih =>
    simp only [List.map_cons, List.sum_cons]
    calc D * f x / W + (t.map fun a => D * f a / W).sum
        ≤ D * f x / W + D * (t.map f).sum / W := by omega
    _ ≤ (D * f x + D * (t.map f).sum) / W := ediv_add_ediv_le _ _ _ hW
    _ = D * (f x + (t.map f).sum) / W := by ring_nf

/-- Summing per-address fiber sums over a duplicate-free covering address list
recovers the sum over all items. -/
theorem sum_fiber {β : Type _} (items : List β) (key : β → String) (f : β → ℤ)
    (addrs : List String) (hnd : addrs.Nodup)
    (hcov : ∀ s ∈ items, key s ∈ addrs) :
    (addrs.map fun a => ((items.filter fun s => key s = a).map f).sum).sum =
      (items.map f).sum := by
  induction items with
  | nil => simp
  | cons s t ih =>
    have hcovt : ∀ x ∈ t, key x ∈ addrs := fun x hx =>
      hcov x (List.mem_cons.mpr (Or.inr hx))
    have hks : key s ∈ addrs := hcov s (List.mem_cons_self s t)
    have hstep : (addrs.map fun a => (((s :: t).filter fun x => key x = a).map f).sum) =
        addrs.map fun a => if a = key s
          then f s + ((t.filter fun x => key x = a).map f).sum
          else ((t.filter fun x => key x = a).map f).sum := by
      apply List.map_congr_left
      intro a _
      by_cases h : key s = a
      · rw [List.filter_cons_of_pos (by simpa using h), if_pos h.symm]
        simp
      · rw [List.filter_cons_of_neg (by simpa using h),
          if_neg (fun hh => h hh.symm)]
    rw [hstep]
    have hswap : (addrs.map fun a => if a = key s
          then f s + ((t.filter fun x => key x = a).map f).sum
          else ((t.filter fun x => key x = a).map f).sum) =
        addrs.map fun a => if a = key s
          then (fun b => ((t.filter fun x => key x = b).map f).sum) (key s) + f s
          else ((t.filter fun x => key x = a).map f).sum := by
      apply List.map_congr_left
      intro a _
      by_cases h : a = key s
      · rw [if_pos h, if_pos h, h]
        ring
      · rw [if_neg h, if_neg h]
    rw [hswap,
      sum_map_update hnd hks (fun b => ((t.filter fun x => key x = b).map f).sum) (f s),
      ih hcovt]
    simp only [List.map_cons, List.sum_cons]
    ring

/-! ### Window aggregation lemmas -/

theorem Window.shareWeight_nonneg (w : Window) (hmax : 0 ≤ w.maxTarget) (s : Share)
    (hst : ∀ t, s.shareTarget = some t → 0 ≤ t) : 0 ≤ w.ShareWeight s := by
  unfold Window.ShareWeight
  cases hcase : s.shareTarget with
  | none => norm_num
  | some t =>
    by_cases ht : t = 0
    · simp [ht]
    · simp only [if_neg ht]
      exact Int.ediv_nonneg hmax (hst t hcase)

theorem Window.mem_addresses (w : Window) (a : String) :
    a ∈ w.addresses ↔ a ∈ w.shares.map Share.minerAddress := by
  rw [Window.addresses, (List.perm_insertionSort _ _).mem_iff, List.mem_dedup]

theorem Window.addresses_nodup (w : Window) : w.addresses.Nodup := by
  rw [Window.addresses]
  exact (List.perm_insertionSort _ _).nodup_iff.mpr (List.nodup_dedup _)

theorem Window.sum_minerWeight (w : Window) :
    (w.addresses.map w.MinerWeight).sum = w.TotalWeight := by
  unfold Window.MinerWeight Window.TotalWeight
  exact sum_fiber w.shares Share.minerAddress w.ShareWeight w.addresses
    w.addresses_nodup fun s hs => (w.mem_addresses _).mpr (List.mem_map_of_mem _ hs)

theorem Window.minerWeight_nonneg (w : Window) (hmax : 0 ≤ w.maxTarget)
    (hst : ∀ s ∈ w.shares, ∀ t, s.shareTarget = some t → 0 ≤ t) (a : String) :
    0 ≤ w.MinerWeight a := by
  unfold Window.MinerWeight
  apply List.sum_nonneg
  intro x hx
  obtain ⟨s, hs, rfl⟩ := List.mem_map.mp hx
  exact w.shareWeight_nonneg hmax s (hst s (List.mem_of_mem_filter hs))

theorem Window.minerWeight_le_totalWeight (w : Window) (hmax : 0 ≤ w.maxTarget)
    (hst : ∀ s ∈ w.shares, ∀ t, s.shareTarget = some t → 0 ≤ t) (a : String) :
    w.MinerWeight a ≤ w.TotalWeight := by
  unfold Window.MinerWeight Window.TotalWeight
  apply List.Sublist.sum_le_sum
  · exact (List.filter_sublist w.shares).map w.ShareWeight
  · intro x hx
    obtain ⟨s, hs, rfl⟩ := List.mem_map.mp hx
    exact w.shareWeight_nonneg hmax s (hst s hs)

theorem Window.totalWeight_nonneg (w : Window) (hmax : 0 ≤ w.maxTarget)
    (hst : ∀ s ∈ w.shares, ∀ t, s.shareTarget = some t → 0 ≤ t) :
    0 ≤ w.TotalWeight := by
  unfold Window.TotalWeight
  apply List.sum_nonneg
  intro x hx
  obtain ⟨s, hs, rfl⟩ := List.mem_map.mp hx
  exact w.shareWeight_nonneg hmax s (hst s hs)

/-! ### basePayouts lemmas -/

theorem basePayouts_WF (addrs : List String) (hnd : addrs.Nodup) (D W : ℤ)
    (wt : String → ℤ) : (basePayouts addrs D W wt).WF := by
  refine ⟨hnd.filter _, ?_⟩
  intro a ha
  show (if a ∈ addrs ∧ 0 < minerPayout D W (wt a) then minerPayout D W (wt a) else 0) = 0
  rw [if_neg]
  intro ⟨h1, h2⟩
  exact ha (List.mem_filter.mpr ⟨h1, by simpa using h2⟩)

theorem basePayouts_pos (addrs : List String) (D W : ℤ) (wt : String → ℤ) :
    ∀ a ∈ (basePayouts addrs D W wt).keys, 0 < (basePayouts addrs D W wt).amt a := by
  intro a ha
  obtain ⟨h1, h2⟩ := List.mem_filter.mp ha
  have h2' : 0 < minerPayout D W (wt a) := by simpa using h2
  show 0 < if a ∈ addrs ∧ 0 < minerPayout D W (wt a) then minerPayout D W (wt a) else 0
  rw [if_pos ⟨h1, h2'⟩]
  exact h2'

theorem basePayouts_keys_subset (addrs : List String) (D W : ℤ) (wt : String → ℤ) :
    ∀ a ∈ (basePayouts addrs D W wt).keys, a ∈ addrs :=
  fun _ ha => (List.mem_filter.mp ha).1

/-- In range (`0 ≤ payout ≤ D < 2^63`), the `IsInt64` clamp never fires. -/
theorem minerPayout_eq (D W wa : ℤ) (hW : 0 < W) (hD : 0 ≤ D) (hD64 : D < 2 ^ 63)
    (hwa : 0 ≤ wa) (hle : wa ≤ W) : minerPayout D W wa = D * wa / W := by
  have h0 : 0 ≤ D * wa / W := Int.ediv_nonneg (mul_nonneg hD hwa) (le_of_lt hW)
  have hle' : D * wa / W ≤ D := by
    calc D * wa / W ≤ D * W / W := Int.ediv_le_ediv hW (by nlinarith)
    _ = D := Int.mul_ediv_cancel D (ne_of_gt hW)
  show (if D * wa / W < -(2 ^ 63) ∨ 2 ^ 63 ≤ D * wa / W then D else D * wa / W) = _
  rw [if_neg (by push_neg; constructor <;> omega)]

theorem basePayouts_sum_le (addrs : List String) (hnd : addrs.Nodup) (D W : ℤ)
    (wt : String → ℤ) (hW : 0 < W) (hD : 0 ≤ D) (hD64 : D < 2 ^ 63)
    (hwt : ∀ a, 0 ≤ wt a) (hwtle : ∀ a, wt a ≤ W)
    (hwsum : (addrs.map wt).sum = W) :
    (basePayouts addrs D W wt).sum ≤ D := by
  have hamt : ∀ a ∈ (basePayouts addrs D W wt).keys,
      (basePayouts addrs D W wt).amt a = D * wt a / W := by
    intro a ha
    obtain ⟨h1, h2⟩ := List.mem_filter.mp ha
    have h2' : 0 < minerPayout D W (wt a) := by simpa using h2
    show (if a ∈ addrs ∧ 0 < minerPayout D W (wt a) then minerPayout D W (wt a) else 0) = _
    rw [if_pos ⟨h1, h2'⟩, minerPayout_eq D W (wt a) hW hD hD64 (hwt a) (hwtle a)]
  unfold PayMap.sum
  rw [List.map_congr_left hamt]
  calc ((basePayouts addrs D W wt).keys.map fun a => D * wt a / W).sum
      ≤ (addrs.map fun a => D * wt a / W).sum := by
        apply List.Sublist.sum_le_sum
        · exact (List.filter_sublist addrs).map _
        · intro x hx
          obtain ⟨a, _, rfl⟩ := List.mem_map.mp hx
          exact Int.ediv_nonneg (mul_nonneg hD (hwt a)) (le_of_lt hW)
  _ ≤ D * (addrs.map wt).sum / W := sum_map_ediv_le addrs wt D W hW
  _ = D * W / W := by rw [hwsum]
  _ = D := Int.mul_ediv_cancel D (ne_of_gt hW)

theorem PayMap.pos_addTo (m : PayMap) (hwf : m.WF)
    (hpos : ∀ a ∈ m.keys, 0 < m.amt a) (k : String) (v : ℤ) (hv : 0 < v) :
    ∀ a ∈ (m.addTo k v).keys, 0 < (m.addTo k v).amt a := by
  intro a ha
  rw [PayMap.amt_addTo]
  by_cases hak : a = k
  · rw [if_pos hak]
    by_cases hk : k ∈ m.keys
    · have := hpos k hk
      omega
    · rw [hwf.2 k hk]
      omega
  · rw [if_neg hak]
    rcases (m.mem_addTo k v a).mp ha with h | h
    · exact hpos a h
    · exact absurd h hak

/-! ### Claim C1: the payout total -/

/-- C1 (amended): `CalculatePayouts` returns an empty list when the window is
empty, the total reward is zero or negative, or the window's total weight is
zero; otherwise (for a nonnegative finder-fee percentage, nonnegative share
and max targets, an `int64` total reward, and provided the finder fee that the
`float64` arithmetic produces does not exceed the total reward — binary64
rounding can push it above, e.g. at `totalReward = 2 ^ 62 - 1` with a 100%
fee) the amounts of the emitted payouts sum to exactly the total reward —
including when the dust branch runs. -/
theorem calculatePayouts_total (c : Calculator) (w : Window) (totalReward : ℤ)
    (finderAddress : String)
    (hpct0 : 0 ≤ c.finderFeePercent)
    (hfeeR : c.finderFee totalReward ≤ totalReward)
    (hmax : 0 ≤ w.maxTarget)
    (hst : ∀ s ∈ w.shares, ∀ t, s.shareTarget = some t → 0 ≤ t)
    (hr64 : totalReward < 2 ^ 63) :
    (w.shares = [] ∨ totalReward ≤ 0 →
      CalculatePayouts c w totalReward finderAddress = []) ∧
    (w.TotalWeight = 0 → CalculatePayouts c w totalReward finderAddress = []) ∧
    (w.shares ≠ [] → 0 < totalReward → w.TotalWeight ≠ 0 →
      ((CalculatePayouts c w totalReward finderAddress).map PayoutEntry.amount).sum =
        totalReward) := by
  classical
  have hWnn : 0 ≤ w.TotalWeight := w.totalWeight_nonneg hmax hst
  refine ⟨?_, ?_, ?_⟩
  · intro h
    have hcond : w.ShareCount = 0 ∨ totalReward ≤ 0 := by
      rcases h with h | h
      · exact Or.inl (by simp [Window.ShareCount, h])
      · exact Or.inr h
    simp only [CalculatePayouts]
    rw [if_pos hcond]
  · intro hW0
    by_cases hcond : w.ShareCount = 0 ∨ totalReward ≤ 0
    · simp only [CalculatePayouts]
      rw [if_pos hcond]
    · simp only [CalculatePayouts]
      rw [if_neg hcond, if_pos hW0]
  · intro hne hr hWne
    have hW : 0 < w.TotalWeight := lt_of_le_of_ne hWnn (Ne.symm hWne)
    have hcond1 : ¬(w.ShareCount = 0 ∨ totalReward ≤ 0) := by
      push_neg
      exact ⟨fun h => hne (List.length_eq_zero.mp h), hr⟩
    set fee := c.finderFee totalReward with hfee
    have hfee0 : 0 ≤ fee := c.finderFee_nonneg totalReward (le_of_lt hr) hpct0
    have hfeele : fee ≤ totalReward := hfeeR
    set D := totalReward - fee with hDdef
    have hD0 : 0 ≤ D := by omega
    have hD64 : D < 2 ^ 63 := by omega
    set addrs := w.addresses with haddrs
    have hand : addrs.Nodup := w.addresses_nodup
    have haddrne : addrs ≠ [] := by
      obtain ⟨s, hs⟩ := List.exists_mem_of_ne_nil w.shares hne
      exact List.ne_nil_of_mem ((w.mem_addresses _).mpr (List.mem_map_of_mem _ hs))
    have hwt0 : ∀ a, 0 ≤ w.MinerWeight a := w.minerWeight_nonneg hmax hst
    have hwtle : ∀ a, w.MinerWeight a ≤ w.TotalWeight :=
      w.minerWeight_le_totalWeight hmax hst
    have hwsum : (addrs.map w.MinerWeight).sum = w.TotalWeight := w.sum_minerWeight
    set m0 := basePayouts addrs D w.TotalWeight w.MinerWeight with hm0
    have hm0WF : m0.WF := basePayouts_WF addrs hand D _ _
    have hm0pos := basePayouts_pos addrs D w.TotalWeight w.MinerWeight
    have hm0sub := basePayouts_keys_subset addrs D w.TotalWeight w.MinerWeight
    have hm0le : m0.sum ≤ D :=
      basePayouts_sum_le addrs hand D _ _ hW hD0 hD64 hwt0 hwtle hwsum
    set m1 := (if finderAddress ≠ "" ∧ 0 < fee then m0.addTo finderAddress fee else m0)
      with hm1
    set dist1 := (if finderAddress ≠ "" ∧ 0 < fee then m0.sum + fee else m0.sum)
      with hdist1
    have hm1facts : m1.WF ∧ (∀ a ∈ m1.keys, 0 < m1.amt a) ∧ m1.sum = dist1 ∧
        (finderAddress = "" → ∀ a ∈ m1.keys, a ∈ addrs) := by
      by_cases hc1 : finderAddress ≠ "" ∧ 0 < fee
      · rw [hm1, hdist1, if_pos hc1, if_pos hc1]
        exact ⟨m0.WF_addTo hm0WF _ _, m0.pos_addTo hm0WF hm0pos _ _ hc1.2,
          m0.sum_addTo hm0WF _ _, fun hf => absurd hf hc1.1⟩
      · rw [hm1, hdist1, if_neg hc1, if_neg hc1]
        exact ⟨hm0WF, hm0pos, rfl, fun _ => hm0sub⟩
    obtain ⟨hm1WF, hm1pos, hm1sum, hm1sub⟩ := hm1facts
    have hdist1le : dist1 ≤ totalReward := by
      rw [hdist1]
      split_ifs <;> omega
    set rem := totalReward - dist1 with hremdef
    have hrem0 : 0 ≤ rem := by omega
    set m2 := (if 0 < rem then
        (if finderAddress ≠ "" then m1.addTo finderAddress rem
         else if addrs = [] then m1
         else m1.addTo addrs.headI rem)
      else m1) with hm2
    have hm2facts : m2.WF ∧ (∀ a ∈ m2.keys, 0 < m2.amt a) ∧ m2.sum = totalReward ∧
        (finderAddress = "" → ∀ a ∈ m2.keys, a ∈ addrs) := by
      by_cases hR : 0 < rem
      · rw [hm2, if_pos hR]
        by_cases hf : finderAddress ≠ ""
        · rw [if_pos hf]
          refine ⟨m1.WF_addTo hm1WF _ _, m1.pos_addTo hm1WF hm1pos _ _ hR, ?_,
            fun hf' => absurd hf' hf⟩
          rw [m1.sum_addTo hm1WF]
          omega
        · rw [if_neg hf, if_neg haddrne]
          refine ⟨m1.WF_addTo hm1WF _ _, m1.pos_addTo hm1WF hm1pos _ _ hR, ?_, ?_⟩
          · rw [m1.sum_addTo hm1WF]
            omega
          · intro hf' a ha
            rcases (m1.mem_addTo addrs.headI rem a).mp ha with h | h
            · exact hm1sub hf' a h
            · rw [h]
              obtain ⟨a0, rest, hsplit⟩ := List.exists_cons_of_ne_nil haddrne
              rw [hsplit]
              exact List.mem_cons_self a0 rest
      · rw [hm2, if_neg hR]
        exact ⟨hm1WF, hm1pos, by omega, hm1sub⟩
    obtain ⟨hm2WF, hm2pos, hm2sum, hm2sub⟩ := hm2facts
    set m3 := consolidateDust m2 finderAddress c.dustThresholdSats addrs with hm3
    have hm3sum : m3.sum = totalReward := by
      obtain ⟨hall, hrest⟩ := consolidateDust_props m2 finderAddress
        c.dustThresholdSats addrs hm2WF hm2pos hm2sub
      by_cases hlen : (m2.keys.filter fun a =>
          m2.amt a < c.dustThresholdSats ∧ a ≠ finderAddress).length < m2.keys.length
      · rw [hm3, (hrest hlen).2.2.1, hm2sum]
      · rw [hm3, hall hlen, hm2sum]
    have hexpand : CalculatePayouts c w totalReward finderAddress =
        List.insertionSort payoutOrder (m3.keys.map fun a => PayoutEntry.mk a (m3.amt a)) := by
      simp only [CalculatePayouts]
      rw [if_neg hcond1, if_neg hWne]
    rw [hexpand]
    have hperm : ((List.insertionSort payoutOrder
          (m3.keys.map fun a => PayoutEntry.mk a (m3.amt a))).map PayoutEntry.amount).sum =
        ((m3.keys.map fun a => PayoutEntry.mk a (m3.amt a)).map PayoutEntry.amount).sum :=
      ((List.perm_insertionSort payoutOrder _).map PayoutEntry.amount).sum_eq
    rw [hperm, List.map_map]
    exact hm3sum

/-- The counterexample window for C1: one share whose target exceeds the max
target, so its weight — and the window's total weight — is zero. -/
def cexShare : Share := ⟨⟨1, [], [], 0, 0, 0⟩, 1, [], some 2, "a", [], 0, none⟩

/-- The counterexample window for C1. -/
def cexWindow : Window := ⟨[cexShare], 1⟩

/-- C1 counterexample: a nonempty window with a positive total reward for which
`CalculatePayouts` returns the empty list, so the emitted total is `0 ≠ 100`,
refuting the claim that a nonempty window and positive reward always yield
payouts summing to the reward. -/
theorem calculatePayouts_total_counterexample :
    cexWindow.shares ≠ [] ∧ (0 : ℤ) < 100 ∧
      CalculatePayouts ⟨0, 546⟩ cexWindow 100 "a" = [] ∧
      ((CalculatePayouts ⟨0, 546⟩ cexWindow 100 "a").map PayoutEntry.amount).sum ≠ 100 := by
  refine ⟨by decide, by decide, ?_, ?_⟩ <;> decide

/-- A two-miner window used to witness C1. -/
def c1WitnessWindow : Window :=
  ⟨[⟨⟨1, [], [], 0, 0, 0⟩, 1, [], some 5, "a", [], 0, none⟩,
    ⟨⟨1, [], [], 1, 0, 0⟩, 1, [], some 5, "b", [], 0, none⟩], 10⟩

/-- Concrete evaluation of the binary64 finder fee at the witness inputs:
every intermediate value is an integer below `2 ^ 53`, so each rounding step
is exact. -/
theorem c1FeeEval : Calculator.finderFee ⟨1 / 2, 546⟩ 5000000000 = 25000000 := by
  unfold Calculator.finderFee
  rw [float64Round_intCast 5000000000 (by norm_num)]
  rw [show ((5000000000 : ℤ) : ℚ) * (⟨1 / 2, 546⟩ : Calculator).finderFeePercent
      = ((2500000000 : ℤ) : ℚ) by norm_num]
  rw [float64Round_intCast 2500000000 (by norm_num)]
  rw [show ((2500000000 : ℤ) : ℚ) / 100 = ((25000000 : ℤ) : ℚ) by norm_num]
  rw [float64Round_intCast 25000000 (by norm_num)]
  exact truncInt64_intCast 25000000

/-- C1 witness: at a concrete two-miner window with a 0.5% finder fee the
payout amounts sum to the full reward. -/
theorem calculatePayouts_total_witness :
    ((CalculatePayouts ⟨1 / 2, 546⟩ c1WitnessWindow 5000000000 "a").map
      PayoutEntry.amount).sum = 5000000000 := by
  have h := calculatePayouts_total ⟨1 / 2, 546⟩ c1WitnessWindow 5000000000 "a"
    (by norm_num) (by rw [c1FeeEval]; norm_num) (by norm_num [c1WitnessWindow])
    (by
      intro s hs t ht
      have : s.shareTarget = some 5 := by
        simp only [c1WitnessWindow, List.mem_cons, List.not_mem_nil, or_false] at hs
        rcases hs with rfl | rfl <;> rfl
      rw [this] at ht
      injection ht with h'
      omega)
    (by norm_num)
  exact h.2.2 (by decide) (by norm_num) (by decide)

/-! ### Claim C4: the dust-consolidation step -/

/-- C4: dust consolidation identifies exactly the payout entries below the dust
threshold whose address is not the finder; when their count is strictly less
than the payout count they are deleted and their sum is added to the finder's
payout (or to the first remaining miner when there is no finder); when all
payouts would be dust, every payout is kept unchanged. -/
theorem consolidateDust_dust_spec (m : PayMap) (finder : String) (dust : ℤ)
    (addrs : List String) (hwf : m.WF) (hpos : ∀ a ∈ m.keys, 0 < m.amt a)
    (hsub : finder = "" → ∀ a ∈ m.keys, a ∈ addrs) :
    (¬((m.keys.filter fun a => m.amt a < dust ∧ a ≠ finder).length < m.keys.length) →
        consolidateDust m finder dust addrs = m) ∧
    ((m.keys.filter fun a => m.amt a < dust ∧ a ≠ finder).length < m.keys.length →
      (∀ a ∈ m.keys.filter fun a => m.amt a < dust ∧ a ≠ finder,
          a ∉ (consolidateDust m finder dust addrs).keys) ∧
      (∀ a ∈ m.keys, a ∉ (m.keys.filter fun a => m.amt a < dust ∧ a ≠ finder) →
          a ∈ (consolidateDust m finder dust addrs).keys) ∧
      (consolidateDust m finder dust addrs).sum = m.sum ∧
      (finder ≠ "" →
        (consolidateDust m finder dust addrs).amt finder =
          m.amt finder +
            ((m.keys.filter fun a => m.amt a < dust ∧ a ≠ finder).map m.amt).sum ∧
        ∀ a, a ≠ finder → a ∉ (m.keys.filter fun a => m.amt a < dust ∧ a ≠ finder) →
          (consolidateDust m finder dust addrs).amt a = m.amt a) ∧
      (finder = "" →
        ∀ r₀, addrs.find? (fun a => decide (a ∈ m.keys ∧
            a ∉ m.keys.filter fun x => m.amt x < dust ∧ x ≠ finder)) = some r₀ →
          (consolidateDust m finder dust addrs).amt r₀ =
            m.amt r₀ +
              ((m.keys.filter fun a => m.amt a < dust ∧ a ≠ finder).map m.amt).sum ∧
          ∀ a, a ≠ r₀ → a ∉ (m.keys.filter fun a => m.amt a < dust ∧ a ≠ finder) →
            (consolidateDust m finder dust addrs).amt a = m.amt a)) :=
  consolidateDust_props m finder dust addrs hwf hpos hsub

/-- The concrete payout map used to witness C4: `alice` holds 1000 sats,
`bob` holds 5 sats (dust at a 546-sat threshold). -/
def c4WitnessMap : PayMap :=
  ⟨["alice", "bob"], fun a => if a = "alice" then 1000 else if a = "bob" then 5 else 0⟩

/-- C4 witness: with finder `alice` and dust threshold 546, `bob`'s 5-sat
payout is deleted and folded into `alice`'s. -/
theorem consolidateDust_dust_spec_witness :
    (consolidateDust c4WitnessMap "alice" 546 ["alice", "bob"]).amt "alice" = 1005 ∧
      "bob" ∉ (consolidateDust c4WitnessMap "alice" 546 ["alice", "bob"]).keys := by
  have hwf : c4WitnessMap.WF := by
    refine ⟨by decide, ?_⟩
    intro a ha
    simp only [c4WitnessMap, List.mem_cons, List.not_mem_nil, or_false, not_or] at ha
    show (if a = "alice" then (1000 : ℤ) else if a = "bob" then 5 else 0) = 0
    rw [if_neg ha.1, if_neg ha.2]
  have h := consolidateDust_dust_spec c4WitnessMap "alice" 546 ["alice", "bob"]
    hwf (by decide) (fun hemp => absurd hemp (by decide))
  have hlen : (c4WitnessMap.keys.filter fun a =>
      c4WitnessMap.amt a < 546 ∧ a ≠ "alice").length < c4WitnessMap.keys.length := by
    decide
  constructor
  · have := (h.2 hlen).2.2.2.1 (by decide)
    rw [this.1]
    decide
  · exact (h.2 hlen).1 "bob" (by decide)

/-! ## Difficulty calculator (`internal/sharechain/difficulty.go`, claim C2) -/

/-- Go `sharechain.DifficultyAdjustmentWindow`: 72 shares. -/
def DifficultyAdjustmentWindow : ℕ := 72

/-- Go `sharechain.minShareTargetBits` (Bitcoin difficulty 1). -/
def minShareTargetBits : ℕ := 0x1d00ffff

/-- Go `sharechain.maxShareTargetBits` (regtest-style max target). -/
def maxShareTargetBits : ℕ := 0x207fffff

/-- Go `sharechain.MinShareTarget`. -/
def MinShareTarget : ℤ := CompactToTarget minShareTargetBits

/-- Go `sharechain.MaxShareTarget`. -/
def MaxShareTarget : ℤ := CompactToTarget maxShareTargetBits

theorem maxShareTarget_eq : MaxShareTarget = 0x7fffff * 2 ^ 232 := by
  unfold MaxShareTarget maxShareTargetBits CompactToTarget
  norm_num

theorem maxShareTarget_pos : 0 < MaxShareTarget := by
  rw [maxShareTarget_eq]
  positivity

theorem maxShareTarget_lt : MaxShareTarget < 2 ^ 2032 := by
  rw [maxShareTarget_eq]
  norm_num

/-- The trim loop of `NextTarget`: keep `window[0]`, then keep shares from
index 1 on while their target is present, nonzero and within
`[lower, upper]`; truncate at the first violation. -/
def trimWindow (upper lower : ℤ) : List Share → List Share
  | [] => []
  | w0 :: rest =>
    w0 :: rest.takeWhile fun s =>
      match s.shareTarget with
      | none => false
      | some st => decide (¬st = 0 ∧ st ≤ upper ∧ lower ≤ st)

/-- Go `DifficultyCalculator.NextTarget`.  `targetTimeSeconds` models
`int64(dc.targetTime.Seconds())`.  A nil `ShareTarget` is modelled as target
0, which lands in the same `nil || Sign() == 0` branch as in the source. -/
def NextTarget (targetTimeSeconds : ℤ) (shares : List Share) : ℤ :=
  if shares.length < 2 then MaxShareTarget
  else
    let window := shares.take DifficultyAdjustmentWindow
    let newest := window.headI
    let currentTarget := newest.shareTarget.getD 0
    if currentTarget = 0 then MaxShareTarget
    else
      let upper := currentTarget * 4
      let lower := currentTarget.ediv 4
      let trimmed := trimWindow upper lower window
      if trimmed.length < 2 then CompactToTarget (TargetToCompact currentTarget)
      else
        let oldest := trimmed.getLastD newest
        let actualTime0 := (newest.header.timestamp : ℤ) - (oldest.header.timestamp : ℤ)
        let actualTime := if actualTime0 ≤ 0 then 1 else actualTime0
        let expectedTime0 := targetTimeSeconds * ((trimmed.length : ℤ) - 1)
        let expectedTime := if expectedTime0 ≤ 0 then 1 else expectedTime0
        let newTarget0 := (currentTarget * actualTime).ediv expectedTime
        let newTarget1 := if currentTarget * 4 < newTarget0 then currentTarget * 4 else newTarget0
        let newTarget2 := if newTarget1 < currentTarget.ediv 4 then currentTarget.ediv 4 else newTarget1
        let newTarget3 := if MaxShareTarget < newTarget2 then MaxShareTarget else newTarget2
        CompactToTarget (TargetToCompact newTarget3)

/-- Evaluation of `CompactToTarget` on a sign-bit-clear compact split into
exponent and mantissa. -/
theorem CompactToTarget_eval (e m : ℕ) (hm : m < 2 ^ 23) :
    CompactToTarget (e * 2 ^ 24 + m) =
      ((if e ≤ 3 then m / 2 ^ (8 * (3 - e)) else m * 2 ^ (8 * (e - 3)) : ℕ) : ℤ) := by
  unfold CompactToTarget
  have h1 : (e * 2 ^ 24 + m) / 2 ^ 24 = e := by omega
  have h2 : (e * 2 ^ 24 + m) % 2 ^ 23 = m := by omega
  have h3 : ¬((e * 2 ^ 24 + m) / 2 ^ 23 % 2 = 1) := by omega
  rw [h1, h2, if_neg h3]

/-- The compact round trip never increases a (not astronomically large)
nonnegative target: normalization truncates to at most three mantissa bytes. -/
theorem compactRoundtrip_le_nat (a : ℕ) (ha : a < 2 ^ 2032) :
    CompactToTarget (TargetToCompact ((a : ℕ) : ℤ)) ≤ ((a : ℕ) : ℤ) := by
  by_cases ha0 : a = 0
  · subst ha0
    simp [TargetToCompact, CompactToTarget]
  have hn1 : 1 ≤ byteLen a := by
    rw [byteLen_eq a ha0]
    omega
  have hn254 : byteLen a ≤ 254 := by
    by_contra hc
    push_neg at hc
    have h1 : (256 : ℕ) ^ 254 ≤ 256 ^ (byteLen a - 1) :=
      Nat.pow_le_pow_right (by norm_num) (by omega)
    have h2 := pow_byteLen_le a ha0
    have : (256 : ℕ) ^ 254 = 2 ^ 2032 := by
      rw [show (256 : ℕ) = 2 ^ 8 by norm_num, ← pow_mul]
    omega
  rw [TargetToCompact_pos a ha0]
  have hMlt : (if byteLen a ≤ 3 then a else a / 2 ^ (8 * (byteLen a - 3))) < 2 ^ 24 := by
    by_cases h3 : byteLen a ≤ 3
    · rw [if_pos h3]
      calc a < 256 ^ byteLen a := byteLen_le_self_pow a
      _ ≤ 256 ^ 3 := Nat.pow_le_pow_right (by norm_num) h3
      _ = 2 ^ 24 := by norm_num
    · rw [if_neg h3]
      rw [Nat.div_lt_iff_lt_mul (by positivity)]
      calc a < 256 ^ byteLen a := byteLen_le_self_pow a
      _ = 2 ^ 24 * 2 ^ (8 * (byteLen a - 3)) := by
        rw [show (256 : ℕ) = 2 ^ 8 by norm_num, ← pow_mul, ← pow_add]
        congr 1
        omega
  set M := (if byteLen a ≤ 3 then a else a / 2 ^ (8 * (byteLen a - 3))) with hM
  by_cases hMtop : 2 ^ 23 ≤ M
  · rw [if_pos hMtop]
    have hM8 : M / 2 ^ 8 < 2 ^ 23 := by omega
    have hmod : (byteLen a + 1) % 256 = byteLen a + 1 := Nat.mod_eq_of_lt (by omega)
    have hmod2 : M / 2 ^ 8 % 2 ^ 23 = M / 2 ^ 8 := Nat.mod_eq_of_lt hM8
    rw [hmod, hmod2, CompactToTarget_eval (byteLen a + 1) (M / 2 ^ 8) hM8]
    have hn3 : ¬(byteLen a + 1 ≤ 3) := by
      intro hc
      have hsmall : a < 2 ^ 16 := by
        calc a < 256 ^ byteLen a := byteLen_le_self_pow a
        _ ≤ 256 ^ 2 := Nat.pow_le_pow_right (by norm_num) (by omega)
        _ = 2 ^ 16 := by norm_num
      have : M = a := by rw [hM, if_pos (by omega)]
      omega
    rw [if_neg hn3]
    have key : M / 2 ^ 8 * 2 ^ (8 * (byteLen a + 1 - 3)) ≤ a := by
      by_cases h3 : byteLen a ≤ 3
      · have hMa : M = a := by rw [hM, if_pos h3]
        have hbl3 : byteLen a = 3 := by
          by_contra hbl
          have : a < 2 ^ 16 := by
            calc a < 256 ^ byteLen a := byteLen_le_self_pow a
            _ ≤ 256 ^ 2 := Nat.pow_le_pow_right (by norm_num) (by omega)
            _ = 2 ^ 16 := by norm_num
          omega
        rw [hMa, hbl3]
        simpa using Nat.div_mul_le_self a (2 ^ 8)
      · have hMa : M = a / 2 ^ (8 * (byteLen a - 3)) := by rw [hM, if_neg h3]
        rw [hMa, Nat.div_div_eq_div_mul, ← pow_add]
        have harith : 8 * (byteLen a - 3) + 8 = 8 * (byteLen a + 1 - 3) := by omega
        rw [harith]
        exact Nat.div_mul_le_self a _
    exact_mod_cast key
  · rw [if_neg hMtop]
    have hmod : byteLen a % 256 = byteLen a := Nat.mod_eq_of_lt (by omega)
    have hmod2 : M % 2 ^ 23 = M := Nat.mod_eq_of_lt (by omega)
    rw [hmod, hmod2, CompactToTarget_eval (byteLen a) M (by omega)]
    by_cases h3 : byteLen a ≤ 3
    · rw [if_pos h3]
      have hMa : M = a := by rw [hM, if_pos h3]
      rw [hMa]
      exact_mod_cast Nat.div_le_self a _
    · rw [if_neg h3]
      have hMa : M = a / 2 ^ (8 * (byteLen a - 3)) := by rw [hM, if_neg h3]
      rw [hMa]
      exact_mod_cast Nat.div_mul_le_self a _

theorem compactRoundtrip_le (x : ℤ) (hx : 0 ≤ x) (hx' : x < 2 ^ 2032) :
    CompactToTarget (TargetToCompact x) ≤ x := by
  obtain ⟨a, rfl⟩ := Int.eq_ofNat_of_zero_le hx
  exact compactRoundtrip_le_nat a (by exact_mod_cast hx')

/-- Unfolding of `NextTarget` past the length and target guards. -/
theorem NextTarget_eq_of (tt : ℤ) (shares : List Share) (t : ℤ)
    (hlen : ¬(shares.length < 2)) (ht : shares.headI.shareTarget = some t)
    (ht0 : ¬(t = 0)) :
    NextTarget tt shares =
      (let window := shares.take DifficultyAdjustmentWindow
       let trimmed := trimWindow (t * 4) (t.ediv 4) window
       if trimmed.length < 2 then CompactToTarget (TargetToCompact t)
       else
         let oldest := trimmed.getLastD shares.headI
         let actualTime0 := (shares.headI.header.timestamp : ℤ) -
           (oldest.header.timestamp : ℤ)
         let actualTime := if actualTime0 ≤ 0 then 1 else actualTime0
         let expectedTime0 := tt * ((trimmed.length : ℤ) - 1)
         let expectedTime := if expectedTime0 ≤ 0 then 1 else expectedTime0
         let newTarget0 := (t * actualTime).ediv expectedTime
         let newTarget1 := if t * 4 < newTarget0 then t * 4 else newTarget0
         let newTarget2 := if newTarget1 < t.ediv 4 then t.ediv 4 else newTarget1
         let newTarget3 := if MaxShareTarget < newTarget2 then MaxShareTarget
           else newTarget2
         CompactToTarget (TargetToCompact newTarget3)) := by
  have hnewest : (shares.take DifficultyAdjustmentWindow).headI = shares.headI := by
    cases shares <;> rfl
  simp only [NextTarget]
  rw [if_neg hlen, hnewest, ht, Option.getD_some, if_neg ht0]

/-- C2 (amended): with fewer than 2 shares the result is `MaxShareTarget`;
otherwise, when the newest share's target `t` is positive and at most
`MaxShareTarget`, the result is at most `MaxShareTarget` and at most `4t`, and
it is the compact round-trip normalization of a value clamped to
`[t/4, 4t] ∩ (-∞, MaxShareTarget]` — the normalization itself may round the
result below the exact `t/4` lower bound. -/
theorem nextTarget_bounds (tt : ℤ) (shares : List Share) :
    (shares.length < 2 → NextTarget tt shares = MaxShareTarget) ∧
    (∀ t : ℤ, 2 ≤ shares.length → shares.headI.shareTarget = some t → 0 < t →
      t ≤ MaxShareTarget →
      NextTarget tt shares ≤ MaxShareTarget ∧
      NextTarget tt shares ≤ t * 4 ∧
      ∃ x : ℤ, t.ediv 4 ≤ x ∧ x ≤ t * 4 ∧ x ≤ MaxShareTarget ∧
        NextTarget tt shares = CompactToTarget (TargetToCompact x)) := by
  constructor
  · intro hlt
    simp only [NextTarget]
    rw [if_pos hlt]
  · intro t hlen ht ht0 htmax
    have hlen' : ¬(shares.length < 2) := by omega
    have heq := NextTarget_eq_of tt shares t hlen' ht (by omega)
    have hdiv4 : t.ediv 4 ≤ t := Int.ediv_le_self 4 (le_of_lt ht0)
    have hdiv40 : 0 ≤ t.ediv 4 := Int.ediv_nonneg (le_of_lt ht0) (by norm_num)
    by_cases htr : (trimWindow (t * 4) (t.ediv 4)
        (shares.take DifficultyAdjustmentWindow)).length < 2
    · have heq2 : NextTarget tt shares = CompactToTarget (TargetToCompact t) :=
        heq.trans (if_pos htr)
      have hle : CompactToTarget (TargetToCompact t) ≤ t :=
        compactRoundtrip_le t (le_of_lt ht0) (by
          calc t ≤ MaxShareTarget := htmax
          _ < 2 ^ 2032 := maxShareTarget_lt)
      refine ⟨?_, ?_, t, hdiv4, by omega, htmax, heq2⟩
      · rw [heq2]
        omega
      · rw [heq2]
        omega
    · set trimmed := trimWindow (t * 4) (t.ediv 4)
        (shares.take DifficultyAdjustmentWindow) with htrm
      set oldest := trimmed.getLastD shares.headI with hold
      set actualTime0 := (shares.headI.header.timestamp : ℤ) -
        (oldest.header.timestamp : ℤ) with hact0
      set actualTime := (if actualTime0 ≤ 0 then 1 else actualTime0) with hact
      set expectedTime0 := tt * ((trimmed.length : ℤ) - 1) with hexp0
      set expectedTime := (if expectedTime0 ≤ 0 then 1 else expectedTime0) with hexp
      set newTarget0 := (t * actualTime).ediv expectedTime with hn0
      set newTarget1 := (if t * 4 < newTarget0 then t * 4 else newTarget0) with hn1
      set newTarget2 := (if newTarget1 < t.ediv 4 then t.ediv 4 else newTarget1)
        with hn2
      set newTarget3 := (if MaxShareTarget < newTarget2 then MaxShareTarget
        else newTarget2) with hn3
      have heq2 : NextTarget tt shares =
          CompactToTarget (TargetToCompact newTarget3) := heq.trans (if_neg htr)
      have hn2ge : t.ediv 4 ≤ newTarget2 := by
        rw [hn2]
        split_ifs <;> omega
      have hn1le : newTarget1 ≤ t * 4 := by
        rw [hn1]
        split_ifs with h <;> omega
      have hn2le : newTarget2 ≤ t * 4 := by
        rw [hn2]
        split_ifs <;> omega
      have hn3le : newTarget3 ≤ t * 4 := by
        rw [hn3]
        split_ifs <;> omega
      have hn3max : newTarget3 ≤ MaxShareTarget := by
        rw [hn3]
        split_ifs <;> omega
      have hn3ge : t.ediv 4 ≤ newTarget3 := by
        rw [hn3]
        split_ifs with h
        · omega
        · omega
      have hn30 : 0 ≤ newTarget3 := by omega
      have hrt : CompactToTarget (TargetToCompact newTarget3) ≤ newTarget3 :=
        compactRoundtrip_le newTarget3 hn30 (by
          have := maxShareTarget_lt
          omega)
      refine ⟨?_, ?_, newTarget3, hn3ge, hn3le, hn3max, heq2⟩
      · rw [heq2]
        omega
      · rw [heq2]
        omega

/-- The counterexample window for C2: two shares at target `0x10000`, one
second apart, with a 30-second target time. -/
def c2Shares : List Share :=
  [⟨⟨1, [], [], 1001, 0, 0⟩, 1, [], some 65536, "a", [], 0, none⟩,
   ⟨⟨1, [], [], 1000, 0, 0⟩, 1, [], some 65536, "a", [], 0, none⟩]

set_option maxRecDepth 8000 in
/-- C2 counterexample: the clamp sets the pre-normalization value to
`t/4 = 0x4000`, but the compact round-trip of a two-byte value truncates it to
`0x40 = 64`, far below `newest.target/4 = 16384` — refuting the claimed lower
bound on the returned target. -/
theorem nextTarget_bounds_counterexample :
    2 ≤ c2Shares.length ∧ c2Shares.headI.shareTarget = some 65536 ∧
      NextTarget 30 c2Shares = 64 ∧
      NextTarget 30 c2Shares < (65536 : ℤ).ediv 4 := by
  refine ⟨by decide, by decide, by decide, by decide⟩

set_option maxRecDepth 8000 in
/-- C2 witness: on the concrete two-share window the returned target is within
the claimed upper bounds. -/
theorem nextTarget_bounds_witness :
    NextTarget 30 c2Shares ≤ MaxShareTarget ∧
      NextTarget 30 c2Shares ≤ 65536 * 4 := by
  have h := (nextTarget_bounds 30 c2Shares).2 65536 (by decide) (by decide)
    (by decide) (by rw [maxShareTarget_eq]; norm_num)
  exact ⟨h.1, h.2.1⟩

/-! ## Share validation (`internal/sharechain/validation.go`, claim C5) -/

/-- Go `sharechain.MaxTimeFuture` in seconds. -/
def MaxTimeFuture : ℤ := 2 * 60

/-- Go `sharechain.MaxTimePast` in seconds. -/
def MaxTimePast : ℤ := 10 * 60

/-- Go `sharechain.maxCoinbaseTxSize`. -/
def maxCoinbaseTxSize : ℕ := 100 * 1024

/-- Go `sharechain.maxMinerAddressLen`. -/
def maxMinerAddressLen : ℕ := 128

/-- The all-zero 32-byte hash (`var zeroHash [32]byte`). -/
def zeroHash : List ℕ := List.replicate 32 0

/-- The hash value `share.Hash()` returns (cached value if present, else the
double-SHA256 of the serialized header). -/
def shareHashValue (dsha : List ℕ → List ℕ) (s : Share) : List ℕ :=
  (Share.Hash dsha s).1

/-- Go `Share.MeetsTarget`. -/
def MeetsTarget (dsha : List ℕ → List ℕ) (s : Share) (target : ℤ) : Bool :=
  HashMeetsTarget (shareHashValue dsha s) target

/-- The collaborators of `sharechain.Validator`, abstracted: the share store
(`Has`/`Get`), the clock, the consensus target function, and the
`internal/types` address/coinbase helpers, whose sources live outside the
validator.  `Out` is the type of parsed coinbase outputs. -/
structure ValidatorCtx (Out : Type) where
  has : List ℕ → Bool
  get : List ℕ → Option Share
  now : ℤ
  targetFunc : List ℕ → ℤ
  network : String
  validateAddress : String → String → Option String
  dsha : List ℕ → List ℕ
  extractShareCommitment : List ℕ → Except String (List ℕ)
  parseCoinbaseOutputs : List ℕ → Except String Out
  validateMinerInOutputs : Out → String → String → Option String

/-- The parent-timestamp test of `ValidateShare`: the share is too far behind
its parent (checked only when the parent is actually found in the store). -/
def parentTooOld {Out : Type} (v : ValidatorCtx Out) (share : Share) : Bool :=
  match v.get share.prevShareHash with
  | some parent =>
    decide ((share.header.timestamp : ℤ) < (parent.header.timestamp : ℤ) - MaxTimePast)
  | none => false

/-- Go `Validator.ValidateShare`: all checks, in source order, returning the
first failing check's `ValidationError` reason (tags stand in for the
formatted Go messages) or `none` when every check passes.  A nil
`ShareTarget` is modelled as 0 in the compact-consistency check. -/
def ValidateShare {Out : Type} (v : ValidatorCtx Out) (share : Share) : Option String :=
  if share.shareVersion ≠ 1 then some "unsupported share version"
  else if maxMinerAddressLen < share.minerAddress.utf8ByteSize then
    some "miner address too long"
  else if maxCoinbaseTxSize < share.coinbaseTx.length then
    some "coinbase tx too large"
  else if share.minerAddress = "" then some "missing miner address"
  else if (v.validateAddress share.minerAddress v.network).isSome then
    some "invalid miner address"
  else if share.prevShareHash ≠ zeroHash ∧ ¬(v.has share.prevShareHash) then
    some "parent share not found"
  else if v.now + MaxTimeFuture < (share.header.timestamp : ℤ) then
    some "share timestamp is too far in the future"
  else if share.prevShareHash ≠ zeroHash ∧ parentTooOld v share then
    some "share timestamp is too far behind parent"
  else if ¬(MeetsTarget v.dsha share (v.targetFunc share.prevShareHash)) then
    some "share does not meet required target"
  else if TargetToCompact (share.shareTarget.getD 0) ≠
      TargetToCompact (v.targetFunc share.prevShareHash) then
    some "share target mismatch"
  else if share.coinbaseTx.length = 0 then some "missing coinbase transaction"
  else
    match v.extractShareCommitment share.coinbaseTx with
    | .error _ => some "coinbase commitment extraction failed"
    | .ok committedHash =>
      if committedHash ≠ share.prevShareHash then
        some "coinbase commitment mismatch"
      else
        match v.parseCoinbaseOutputs share.coinbaseTx with
        | .error _ => some "coinbase output parsing failed"
        | .ok outputs =>
          match v.validateMinerInOutputs outputs share.minerAddress v.network with
          | some _ => some "miner not in coinbase outputs"
          | none => none

/-- C5: `ValidateShare` returns `none` exactly when every check passes (listed
in the source order); a share with `ShareVersion ≠ 1` is always rejected with
the version error (the first check); and the parent-existence check is skipped
exactly at genesis: with an all-zero `prev_share_hash` the result does not
depend on the store at all, while with a nonzero `prev_share_hash` an unknown
parent fails with the parent error regardless of all later checks. -/
theorem validateShare_spec {Out : Type} (v : ValidatorCtx Out) (s : Share) :
    (ValidateShare v s = none ↔
      (s.shareVersion = 1 ∧
       s.minerAddress.utf8ByteSize ≤ maxMinerAddressLen ∧
       s.coinbaseTx.length ≤ maxCoinbaseTxSize ∧
       s.minerAddress ≠ "" ∧
       v.validateAddress s.minerAddress v.network = none ∧
       (s.prevShareHash ≠ zeroHash → v.has s.prevShareHash = true) ∧
       (s.header.timestamp : ℤ) ≤ v.now + MaxTimeFuture ∧
       (s.prevShareHash ≠ zeroHash → ∀ parent, v.get s.prevShareHash = some parent →
         (parent.header.timestamp : ℤ) - MaxTimePast ≤ (s.header.timestamp : ℤ)) ∧
       MeetsTarget v.dsha s (v.targetFunc s.prevShareHash) = true ∧
       TargetToCompact (s.shareTarget.getD 0) =
         TargetToCompact (v.targetFunc s.prevShareHash) ∧
       s.coinbaseTx.length ≠ 0 ∧
       (∃ committedHash, v.extractShareCommitment s.coinbaseTx = .ok committedHash ∧
         committedHash = s.prevShareHash) ∧
       (∃ outputs, v.parseCoinbaseOutputs s.coinbaseTx = .ok outputs ∧
         v.validateMinerInOutputs outputs s.minerAddress v.network = none))) ∧
    (s.shareVersion ≠ 1 → ValidateShare v s = some "unsupported share version") ∧
    (s.prevShareHash = zeroHash → ∀ has' get',
      ValidateShare { v with has := has', get := get' } s = ValidateShare v s) ∧
    (s.prevShareHash ≠ zeroHash → s.shareVersion = 1 →
      s.minerAddress.utf8ByteSize ≤ maxMinerAddressLen →
      s.coinbaseTx.length ≤ maxCoinbaseTxSize → s.minerAddress ≠ "" →
      v.validateAddress s.minerAddress v.network = none →
      v.has s.prevShareHash = false →
      ValidateShare v s = some "parent share not found") := by
  refine ⟨?_, ?_, ?_, ?_⟩
  · unfold ValidateShare
    constructor
    · intro hnone
      by_cases h1 : s.shareVersion ≠ 1
      · rw [if_pos h1] at hnone
        cases hnone
      rw [if_neg h1] at hnone
      by_cases h2 : maxMinerAddressLen < s.minerAddress.utf8ByteSize
      · rw [if_pos h2] at hnone
        cases hnone
      rw [if_neg h2] at hnone
      by_cases h3 : maxCoinbaseTxSize < s.coinbaseTx.length
      · rw [if_pos h3] at hnone
        cases hnone
      rw [if_neg h3] at hnone
      by_cases h4 : s.minerAddress = ""
      · rw [if_pos h4] at hnone
        cases hnone
      rw [if_neg h4] at hnone
      by_cases h5 : (v.validateAddress s.minerAddress v.network).isSome
      · rw [if_pos h5] at hnone
        cases hnone
      rw [if_neg h5] at hnone
      by_cases h6 : s.prevShareHash ≠ zeroHash ∧ ¬(v.has s.prevShareHash)
      · rw [if_pos h6] at hnone
        cases hnone
      rw [if_neg h6] at hnone
      by_cases h7 : v.now + MaxTimeFuture < (s.header.timestamp : ℤ)
      · rw [if_pos h7] at hnone
        cases hnone
      rw [if_neg h7] at hnone
      by_cases h8 : s.prevShareHash ≠ zeroHash ∧ parentTooOld v s
      · rw [if_pos h8] at hnone
        cases hnone
      rw [if_neg h8] at hnone
      by_cases h9 : ¬(MeetsTarget v.dsha s (v.targetFunc s.prevShareHash))
      · rw [if_pos h9] at hnone
        cases hnone
      rw [if_neg h9] at hnone
      by_cases h10 : TargetToCompact (s.shareTarget.getD 0) ≠
          TargetToCompact (v.targetFunc s.prevShareHash)
      · rw [if_pos h10] at hnone
        cases hnone
      rw [if_neg h10] at hnone
      by_cases h11 : s.coinbaseTx.length = 0
      · rw [if_pos h11] at hnone
        cases hnone
      rw [if_neg h11] at hnone
      push_neg at h1 h5 h10
      rcases hext : v.extractShareCommitment s.coinbaseTx with e | committedHash
      · simp only [hext] at hnone
        cases hnone
      simp only [hext] at hnone
      by_cases h12 : committedHash ≠ s.prevShareHash
      · rw [if_pos h12] at hnone
        cases hnone
      rw [if_neg h12] at hnone
      push_neg at h12
      rcases hpar : v.parseCoinbaseOutputs s.coinbaseTx with e | outputs
      · simp only [hpar] at hnone
        cases hnone
      simp only [hpar] at hnone
      rcases hmin : v.validateMinerInOutputs outputs s.minerAddress v.network with
        _ | e
      swap
      · simp only [hmin] at hnone
        cases hnone
      refine ⟨h1, by omega, by omega, h4, ?_, ?_, by omega, ?_,
        by simpa using h9, h10, h11, ⟨committedHash, rfl, h12⟩,
        ⟨outputs, rfl, hmin⟩⟩
      · exact Option.not_isSome_iff_eq_none.mp h5
      · intro hz
        rcases h6' : v.has s.prevShareHash with _ | _
        · exact absurd ⟨hz, by rw [h6']; exact Bool.false_ne_true⟩ h6
        · rfl
      · intro hz parent hget
        by_contra hts
        push_neg at hts
        refine h8 ⟨hz, ?_⟩
        unfold parentTooOld
        rw [hget]
        simpa using hts
    · rintro ⟨h1, h2, h3, h4, h5, h6, h7, h8, h9, h10, h11,
        ⟨committedHash, hext, hch⟩, ⟨outputs, hpar, hmin⟩⟩
      rw [if_neg (by omega), if_neg (by omega), if_neg (by omega), if_neg h4,
        if_neg (by simp [h5]), if_neg ?hparent, if_neg (by omega), if_neg ?hts,
        if_neg (by simp [h9]), if_neg (by simp [h10]), if_neg h11]
      · simp only [hext]
        rw [if_neg (by simp [hch])]
        simp only [hpar, hmin]
      case hparent =>
        rintro ⟨hz, hhas⟩
        exact hhas (h6 hz)
      case hts =>
        rintro ⟨hz, hpast⟩
        unfold parentTooOld at hpast
        rcases hget : v.get s.prevShareHash with _ | parent
        · rw [hget] at hpast
          cases hpast
        · rw [hget] at hpast
          have := h8 hz parent hget
          simp only [decide_eq_true_eq] at hpast
          omega
  · intro h1
    unfold ValidateShare
    rw [if_pos h1]
  · intro hz has' get'
    unfold ValidateShare
    have hz' : ¬(s.prevShareHash ≠ zeroHash) := by simpa using hz
    simp only [hz', false_and, ne_eq, not_false_eq_true, if_neg, if_false]
  · intro hz h1 h2 h3 h4 h5 hhas
    unfold ValidateShare
    rw [if_neg (by omega), if_neg (by omega), if_neg (by omega), if_neg h4,
      if_neg (by simp [h5]), if_pos ⟨hz, by simp [hhas]⟩]

/-- The validator context used by the C5 witness: a store that has every
parent, no stored parents to time-check against, and trivially accepting
address/coinbase helpers. -/
def c5Ctx : ValidatorCtx Unit where
  has := fun _ => true
  get := fun _ => none
  now := 1000
  targetFunc := fun _ => 255
  network := "testnet"
  validateAddress := fun _ _ => none
  dsha := fun _ => List.replicate 32 0
  extractShareCommitment := fun _ => .ok (List.replicate 32 0)
  parseCoinbaseOutputs := fun _ => .ok ()
  validateMinerInOutputs := fun _ _ _ => none

/-- A share with `ShareVersion = 2`, used by the C5 witness. -/
def c5BadShare : Share :=
  ⟨⟨1, [], [], 900, 0, 0⟩, 2, zeroHash, some 255, "tb1qtest", [1, 2, 3], 0, none⟩

/-- A share passing every check of `c5Ctx`, used by the C5 witness. -/
def c5GoodShare : Share :=
  ⟨⟨1, [], [], 900, 0, 0⟩, 1, zeroHash, some 255, "tb1qtest", [1], 0, none⟩

/-- C5 witness: the version-2 share is rejected with the version error, and
the good share passes all checks. -/
theorem validateShare_spec_witness :
    ValidateShare c5Ctx c5BadShare = some "unsupported share version" ∧
      ValidateShare c5Ctx c5GoodShare = none :=
  ⟨(validateShare_spec c5Ctx c5BadShare).2.1 (by decide), by decide⟩

/-! ## P2P messages (`internal/p2p/messages.go`, claims C6 and C10) -/

/-- Go `p2p.maxP2PCoinbaseTxSize`. -/
def maxP2PCoinbaseTxSize : ℕ := 100 * 1024

/-- Go `p2p.maxP2PMinerAddressLen`. -/
def maxP2PMinerAddressLen : ℕ := 128

/-- Go `p2p.maxSyncBatchSize`. -/
def maxSyncBatchSize : ℤ := 100

/-- Go `p2p.maxLocatorCount`. -/
def maxLocatorCount : ℕ := 64

/-- Go `p2p.ShareMsg`: a share broadcast via GossipSub (CBOR with integer
keys). -/
structure ShareMsg where
  type : ℕ
  version : ℤ
  prevBlockHash : List ℕ
  merkleRoot : List ℕ
  timestamp : ℕ
  bits : ℕ
  nonce : ℕ
  shareVersion : ℕ
  prevShareHash : List ℕ
  shareTargetBits : ℕ
  minerAddress : String
  coinbaseTx : List ℕ
deriving DecidableEq, Repr

/-- Go `p2p.DecodeShareMsg`: CBOR-decodes (the unmarshaller is a parameter — the
CBOR codec is an external library) and then enforces the wire-level size
caps. -/
def DecodeShareMsg (unmarshal : List ℕ → Except String ShareMsg)
    (data : List ℕ) : Except String ShareMsg :=
  match unmarshal data with
  | .error e => .error e
  | .ok msg =>
    if maxP2PCoinbaseTxSize < msg.coinbaseTx.length then
      .error "coinbase tx too large"
    else if maxP2PMinerAddressLen < msg.minerAddress.utf8ByteSize then
      .error "miner address too long"
    else .ok msg

/-- C10: every successfully decoded `ShareMsg` satisfies both size caps, and
whenever the unmarshalled message violates a cap the decode returns an
error. -/
theorem decodeShareMsg_caps (unmarshal : List ℕ → Except String ShareMsg)
    (data : List ℕ) :
    (∀ msg, DecodeShareMsg unmarshal data = .ok msg →
      msg.coinbaseTx.length ≤ maxP2PCoinbaseTxSize ∧
        msg.minerAddress.utf8ByteSize ≤ maxP2PMinerAddressLen) ∧
    (∀ msg, unmarshal data = .ok msg →
      (maxP2PCoinbaseTxSize < msg.coinbaseTx.length ∨
        maxP2PMinerAddressLen < msg.minerAddress.utf8ByteSize) →
      ∃ e, DecodeShareMsg unmarshal data = .error e) := by
  constructor
  · intro msg hok
    unfold DecodeShareMsg at hok
    rcases hum : unmarshal data with e | m
    · rw [hum] at hok
      cases hok
    · simp only [hum] at hok
      by_cases h1 : maxP2PCoinbaseTxSize < m.coinbaseTx.length
      · rw [if_pos h1] at hok
        cases hok
      rw [if_neg h1] at hok
      by_cases h2 : maxP2PMinerAddressLen < m.minerAddress.utf8ByteSize
      · rw [if_pos h2] at hok
        cases hok
      rw [if_neg h2] at hok
      injection hok with hok
      subst hok
      exact ⟨by omega, by omega⟩
  · intro msg hum hviol
    unfold DecodeShareMsg
    simp only [hum]
    rcases hviol with h | h
    · exact ⟨"coinbase tx too large", by rw [if_pos h]⟩
    · by_cases h1 : maxP2PCoinbaseTxSize < msg.coinbaseTx.length
      · exact ⟨"coinbase tx too large", by rw [if_pos h1]⟩
      · exact ⟨"miner address too long", by rw [if_neg h1, if_pos h]⟩

/-- The oversized message used by the C10 witness. -/
def c10BadMsg : ShareMsg :=
  ⟨1, 1, [], [], 0, 0, 0, 1, [], 0, "tb1qtest", List.replicate 102401 0⟩

/-- The in-bounds message used by the C10 witness. -/
def c10GoodMsg : ShareMsg :=
  ⟨1, 1, [], [], 0, 0, 0, 1, [], 0, "tb1qtest", [1, 2, 3]⟩

/-- C10 witness: a decode that yields an oversized coinbase errors out, and an
in-bounds decode satisfies both caps. -/
theorem decodeShareMsg_caps_witness :
    (∃ e, DecodeShareMsg (fun _ => .ok c10BadMsg) [] = .error e) ∧
      (c10GoodMsg.coinbaseTx.length ≤ maxP2PCoinbaseTxSize ∧
        c10GoodMsg.minerAddress.utf8ByteSize ≤ maxP2PMinerAddressLen) := by
  constructor
  · refine (decodeShareMsg_caps (fun _ => .ok c10BadMsg) []).2 c10BadMsg rfl
      (Or.inl ?_)
    show maxP2PCoinbaseTxSize < (List.replicate 102401 0).length
    rw [List.length_replicate]
    norm_num [maxP2PCoinbaseTxSize]
  · exact (decodeShareMsg_caps (fun _ => .ok c10GoodMsg) []).1 c10GoodMsg rfl

/-- Go `p2p.ShareLocatorReq`: the locator-based sync request. -/
structure ShareLocatorReq where
  type : ℕ
  locators : List (List ℕ)
  maxCount : ℤ

/-- The clamping step of `Syncer.handleStream`, applied to the decoded request
before the installed handler is invoked. -/
def clampSyncRequest (req : ShareLocatorReq) : ShareLocatorReq :=
  let req :=
    if maxSyncBatchSize < req.maxCount then { req with maxCount := maxSyncBatchSize }
    else req
  if maxLocatorCount < req.locators.length then
    { req with locators := req.locators.take maxLocatorCount }
  else req

/-- C6: the request the installed sync handler observes has `MaxCount ≤ 100`
and at most 64 locators; a `MaxCount` above 100 is replaced by exactly 100,
and the locator list is truncated to its first 64 entries. -/
theorem clampSyncRequest_spec (req : ShareLocatorReq) :
    (clampSyncRequest req).maxCount ≤ 100 ∧
    (clampSyncRequest req).locators.length ≤ 64 ∧
    (100 < req.maxCount → (clampSyncRequest req).maxCount = 100) ∧
    (clampSyncRequest req).locators = req.locators.take 64 := by
  unfold clampSyncRequest
  by_cases h1 : maxSyncBatchSize < req.maxCount
  · rw [if_pos h1]
    by_cases h2 : maxLocatorCount < req.locators.length
    · rw [if_pos h2]
      refine ⟨by norm_num [maxSyncBatchSize],
        by simpa [maxLocatorCount] using List.length_take_le 64 _, fun _ => rfl, rfl⟩
    · rw [if_neg h2]
      push_neg at h2
      refine ⟨by norm_num [maxSyncBatchSize],
        by simpa [maxLocatorCount] using h2, fun _ => rfl, ?_⟩
      exact (List.take_of_length_le (by simpa [maxLocatorCount] using h2)).symm
  · rw [if_neg h1]
    push_neg at h1
    by_cases h2 : maxLocatorCount < req.locators.length
    · rw [if_pos h2]
      refine ⟨by simpa [maxSyncBatchSize] using h1,
        by simpa [maxLocatorCount] using List.length_take_le 64 _, ?_, rfl⟩
      intro hgt
      simp only [maxSyncBatchSize] at h1
      omega
    · rw [if_neg h2]
      push_neg at h2
      refine ⟨by simpa [maxSyncBatchSize] using h1,
        by simpa [maxLocatorCount] using h2, ?_, ?_⟩
      · intro hgt
        simp only [maxSyncBatchSize] at h1
        omega
      · exact (List.take_of_length_le (by simpa [maxLocatorCount] using h2)).symm

/-- The oversized sync request used by the C6 witness: `max_count = 500` and
70 locators. -/
def c6Req : ShareLocatorReq := ⟨5, List.replicate 70 zeroHash, 500⟩

/-- C6 witness: the handler observes `max_count = 100` and the first 64
locators. -/
theorem clampSyncRequest_spec_witness :
    (clampSyncRequest c6Req).maxCount = 100 ∧
      (clampSyncRequest c6Req).locators = c6Req.locators.take 64 := by
  have h := clampSyncRequest_spec c6Req
  exact ⟨h.2.2.1 (by norm_num [c6Req]), h.2.2.2⟩

/-! ## Share hash caching (`internal/types/share.go`, claim C9) -/

/-- C9: on a share with an empty cache, `Share.Hash` computes the double-SHA256
of the serialized header and stores it; on the resulting share every later
call returns the cached value unchanged, even if the header is replaced by an
arbitrary different header. -/
theorem share_hash_caching (dsha : List ℕ → List ℕ) (s : Share)
    (h : s.hashCache = none) :
    (Share.Hash dsha s).1 = dsha (SerializeHeader s.header) ∧
    (Share.Hash dsha s).2.hashCache = some (dsha (SerializeHeader s.header)) ∧
    ∀ hdr' : ShareHeader,
      (Share.Hash dsha { (Share.Hash dsha s).2 with header := hdr' }).1 =
        (Share.Hash dsha s).1 := by
  have hs : Share.Hash dsha s =
      (dsha (SerializeHeader s.header),
       { s with hashCache := some (dsha (SerializeHeader s.header)) }) := by
    unfold Share.Hash
    rw [h]
  rw [hs]
  exact ⟨rfl, rfl, fun hdr' => rfl⟩

/-- The fresh share used by the C9 witness. -/
def c9Share : Share :=
  ⟨⟨1, [], [], 1700000000, 0x1d00ffff, 12345⟩, 1, [], none, "tb1qtest", [], 0, none⟩

/-- A mutated header used by the C9 witness. -/
def c9Header : ShareHeader := ⟨2, [], [], 1700000001, 0x1d00ffff, 54321⟩

/-- C9 witness: with the identity standing in for double-SHA256, the first
call on `c9Share` caches the serialized header, and a call after mutating the
header still returns the original hash. -/
theorem share_hash_caching_witness :
    (Share.Hash (fun l => l) c9Share).1 = SerializeHeader c9Share.header ∧
      (Share.Hash (fun l => l)
        { (Share.Hash (fun l => l) c9Share).2 with header := c9Header }).1 =
        (Share.Hash (fun l => l) c9Share).1 := by
  have h := share_hash_caching (fun l => l) c9Share rfl
  exact ⟨h.1, h.2.2 c9Header⟩

end P2PoolGo
